import Mathlib

/-!
Shallow embedding of the sarathi-serve `LLMEngine` core
(`src/vllm/engine/llm_engine.py`) and proofs about the spec's claims.

The engine file is the only source file of the repository snapshot; the
`Sequence`, `SequenceGroup`, `SamplingParams`, `SchedulerOutputs` and
`RequestOutput` classes it manipulates are imported from modules that are not
part of the snapshot, so those data carriers are modelled from the spec
(sections 3, 4.A, 4.F); every definition that does so carries a doc comment
saying `Modelled from the spec`.  All control flow — `_check_stop`,
`_check_beam_search_early_stopping`, `_process_sequence_group_samples`,
`_process_model_outputs`, `step`, `_run_workers`, `_init_cache`, and the
rendezvous-id computation — is translated directly from the source.

Python mutation of shared `Sequence` objects is rendered as explicit state
passing: a group carries the list of its member sequences, and the
`(child, parent)` pairs built by `_process_sequence_group_samples` are
represented by `ChildEntry` values whose `isParent` flag records the
`seq is parent` object-identity tests of the source (a forked child is always
a fresh object, the reused parent is the same object).  Calls into the
scheduler / block manager (`fork_seq`, `free_seq`,
`free_finished_seq_groups`) are recorded as an event trace, since the claims
about them concern the order of those calls.

The beam-search score `Sequence.get_beam_search_score` and the incremental
detokenizer live outside the snapshot and are kept abstract: an `EngineCtx`
carries them as function parameters (`bscore seq len?` returns the score,
with `len? = none` meaning the sequence's actual current length, mirroring
the optional `seq_len` argument; `detok` returns the text increment that
`detokenize_incrementally` would produce).  The claims settled here depend
only on how the engine source uses those functions, not on their bodies.
-/

namespace Sarathi

/-- Modelled from the spec (§3): the status of a sequence. -/
inductive SequenceStatus where
  | waiting
  | running
  | swapped
  | finishedStopped
  | finishedLengthCapped
  | finishedAborted
  | finishedIgnored
deriving DecidableEq, Repr

/-- Modelled from the spec (§3): a status is final iff it is one of the FINISHED_* states. -/
def SequenceStatus.isFinished : SequenceStatus → Bool
  | .finishedStopped => true
  | .finishedLengthCapped => true
  | .finishedAborted => true
  | .finishedIgnored => true
  | _ => false

/-- Modelled from the spec (§3): a single token stream.  The detokenizer
offset state (`tokens`, `prefix_offset`, `read_offset`) and the cumulative
logprob are omitted: no claim observes them (the beam-search score, which in
the source reads the cumulative logprob, is abstracted as a context
function).  `promptTokensProcessed` supports the chunked-prefill bookkeeping
of `append_token_id` described in §4.A. -/
structure Sequence where
  seqId : Nat
  promptTokenIds : List Nat
  outputTokenIds : List Nat
  outputText : String
  status : SequenceStatus
  promptTokensProcessed : Nat
  promptProcessingFinished : Bool
deriving DecidableEq, Repr

def Sequence.getLen (s : Sequence) : Nat :=
  s.promptTokenIds.length + s.outputTokenIds.length

def Sequence.getOutputLen (s : Sequence) : Nat :=
  s.outputTokenIds.length

def Sequence.getPromptLen (s : Sequence) : Nat :=
  s.promptTokenIds.length

def Sequence.getLastTokenId (s : Sequence) : Option Nat :=
  (s.promptTokenIds ++ s.outputTokenIds).getLast?

def Sequence.isFinished (s : Sequence) : Bool :=
  s.status.isFinished

def Sequence.setStatus (s : Sequence) (st : SequenceStatus) : Sequence :=
  { s with status := st }

def Sequence.withOutputText (s : Sequence) (t : String) : Sequence :=
  { s with outputText := t }

def Sequence.isPromptProcessingFinished (s : Sequence) : Bool :=
  s.promptProcessingFinished

/-- Modelled from the spec (§4.A): `fork(new_id)` returns a copy sharing all
token history but carrying the fresh sequence id. -/
def Sequence.fork (s : Sequence) (newId : Nat) : Sequence :=
  { s with seqId := newId }

/-- Modelled from the spec (§4.A): `append_token_id` appends the sampled
token once prompt processing is finished; while the prompt is still being
prefilled it advances the processed-prompt counter by the step's prompt
chunk length, and on the step that consumes the last prompt token it sets
`prompt_processing_finished` (sampling is valid from that step on, per
§4.C(5), so the token is appended on that step as well).  The `logprobs` and
`probs` arguments of the source only feed state that is omitted here. -/
def Sequence.appendTokenId (s : Sequence) (token : Nat) (promptChunkLen : Nat) : Sequence :=
  if s.promptProcessingFinished then
    { s with outputTokenIds := s.outputTokenIds ++ [token] }
  else
    let processed := s.promptTokensProcessed + promptChunkLen
    if s.promptTokenIds.length ≤ processed then
      { s with promptTokensProcessed := processed,
               promptProcessingFinished := true,
               outputTokenIds := s.outputTokenIds ++ [token] }
    else
      { s with promptTokensProcessed := processed }

/-- Modelled from the spec (§3, §6): the `early_stopping` sampling parameter
ranges over `{true, false, "never"}`. -/
inductive EarlyStopping where
  | eTrue
  | eFalse
  | never
deriving DecidableEq, Repr

/-- Modelled from the spec (§3, §6): the sampling parameters consulted by the
engine core.  Penalties, temperature, top-p/top-k and logprob options are
omitted: the engine file never reads them. -/
structure SamplingParams where
  n : Nat
  bestOf : Nat
  useBeamSearch : Bool
  lengthPenalty : Rat
  earlyStopping : EarlyStopping
  maxTokens : Nat
  stop : List String
  ignoreEos : Bool
deriving DecidableEq, Repr

/-- Modelled from the spec (§3): one sampled token produced by the workers;
the logprob data is omitted (it only feeds omitted sequence state). -/
structure SequenceOutputs where
  parentSeqId : Nat
  outputToken : Nat
deriving DecidableEq, Repr

/-- Modelled from the spec (§3): all sequences of one client request. -/
structure SequenceGroup where
  requestId : String
  samplingParams : SamplingParams
  seqs : List Sequence
deriving DecidableEq, Repr

def SequenceGroup.seqIds (g : SequenceGroup) : List Nat :=
  g.seqs.map (·.seqId)

/-- Source `seq_group.get_seqs(status=SequenceStatus.RUNNING)`. -/
def SequenceGroup.runningSeqs (g : SequenceGroup) : List Sequence :=
  g.seqs.filter (fun s => decide (s.status = SequenceStatus.running))

/-- Source `seq_group.get_finished_seqs()`. -/
def SequenceGroup.finishedSeqs (g : SequenceGroup) : List Sequence :=
  g.seqs.filter (fun s => s.isFinished)

/-- Source `seq_group.add(seq)`: the sequence object joins the group. -/
def SequenceGroup.addSeq (g : SequenceGroup) (s : Sequence) : SequenceGroup :=
  { g with seqs := g.seqs ++ [s] }

/-- Source `seq_group.remove(seq_id)`: the sequence with that id leaves the
group. -/
def SequenceGroup.removeSeq (g : SequenceGroup) (seqId : Nat) : SequenceGroup :=
  { g with seqs := g.seqs.filter (fun s => !decide (s.seqId = seqId)) }

/-- In-place mutation of a member object (the source mutates the shared
`Sequence` object; here the group's copy is replaced by id). -/
def SequenceGroup.updateSeq (g : SequenceGroup) (s : Sequence) : SequenceGroup :=
  { g with seqs := g.seqs.map (fun t => if t.seqId = s.seqId then s else t) }

/-- The engine-level context: the abstract beam-search score and incremental
detokenizer (their code is outside the snapshot, see the file header), the
tokenizer's eos token id, and `scheduler_config.max_model_len`. -/
structure EngineCtx where
  bscore : Sequence → Option Nat → Rat
  detok : Sequence → String
  eosTokenId : Nat
  maxModelLen : Nat

/-- Python `text.endswith(suffix)`: a suffix test on the character list. -/
def pyEndsWith (text suffix : String) : Bool :=
  decide (suffix.data <:+ text.data)

/-- Python `text[:-k]`.  For `k = 0` this is `text[:0] = ""` (negative zero
is zero), which is why an empty stop string clears the whole output text in
`_check_stop`; for `k > 0` it drops the final `k` characters. -/
def pySliceDropSuffix (text : String) (k : Nat) : String :=
  if k = 0 then "" else String.mk (text.data.take (text.data.length - k))

/-- The `for stop_str in sampling_params.stop` loop of `_check_stop`
(source lines 729-735): the first configured stop string that is a suffix of
the output text, if any. -/
def firstMatchingStop : List String → String → Option String
  | [], _ => none
  | stopStr :: rest, text =>
      if pyEndsWith text stopStr then some stopStr else firstMatchingStop rest text

/-- Source `LLMEngine._check_stop` (lines 726-751), translated rule by rule:
(i) stop strings in order, truncating via Python slicing; (ii) `get_len() >
max_model_len`; (iii) `get_output_len() == max_tokens`; (iv) eos sampled and
`ignore_eos` false.  Each rule returns immediately when it fires. -/
def checkStop (maxModelLen eosTokenId : Nat) (sp : SamplingParams) (seq : Sequence) : Sequence :=
  match firstMatchingStop sp.stop seq.outputText with
  | some stopStr =>
      (seq.withOutputText
        (pySliceDropSuffix seq.outputText stopStr.length)).setStatus .finishedStopped
  | none =>
      if maxModelLen < seq.getLen then
        seq.setStatus .finishedLengthCapped
      else if seq.getOutputLen = sp.maxTokens then
        seq.setStatus .finishedLengthCapped
      else if sp.ignoreEos = false ∧ seq.getLastTokenId = some eosTokenId then
        seq.setStatus .finishedStopped
      else
        seq

/-- What claim C3/C10 say rule (i) does to the text: remove exactly the
matched suffix.  This differs from the source's Python slicing exactly when
the matched stop string is empty. -/
def specDropMatchedSuffix (text suffix : String) : String :=
  String.mk (text.data.take (text.data.length - suffix.data.length))

/-- Source `LLMEngine._decode_sequence` (lines 707-724): the incremental
detokenizer appends a text increment to `output_text`; the token/offset
state it also updates is omitted (no claim observes it). -/
def decodeSequence (ctx : EngineCtx) (s : Sequence) : Sequence :=
  { s with outputText := s.outputText ++ ctx.detok s }

/-- Source `LLMEngine._check_beam_search_early_stopping` (lines 351-393).
`current_worst_score >= highest_attainable_score` is written with the
arguments flipped (`highest ≤ worst`). -/
def checkBeamSearchEarlyStopping (ctx : EngineCtx) (earlyStopping : EarlyStopping)
    (sp : SamplingParams) (bestRunningSeq currentWorstSeq : Sequence) : Bool :=
  match earlyStopping with
  | .eTrue => true
  | .eFalse =>
      decide (ctx.bscore bestRunningSeq none ≤ ctx.bscore currentWorstSeq none)
  | .never =>
      if 0 < sp.lengthPenalty then
        let maxPossibleLength :=
          max (bestRunningSeq.getPromptLen + sp.maxTokens) ctx.maxModelLen
        decide (ctx.bscore bestRunningSeq (some maxPossibleLength) ≤
                ctx.bscore currentWorstSeq none)
      else
        decide (ctx.bscore bestRunningSeq none ≤ ctx.bscore currentWorstSeq none)

/-- A call the engine makes into the scheduler / block manager while
processing outputs; the claims about fork/free ordering are stated over
lists of these events. -/
inductive SchedEvent where
  | fork (parentSeqId childSeqId : Nat)
  | free (seqId : Nat)
  | freeFinishedGroups
deriving DecidableEq, Repr

def SchedEvent.isFork : SchedEvent → Bool
  | .fork _ _ => true
  | _ => false

def SchedEvent.isFree : SchedEvent → Bool
  | .free _ => true
  | _ => false

/-- The fork-before-free discipline claimed by the spec for an event trace:
once a `free_seq` has been issued, no `fork_seq` follows it. -/
def noForkAfterFree : List SchedEvent → Bool
  | [] => true
  | e :: rest =>
      (if e.isFree then rest.all (fun x => !x.isFork) else true) && noForkAfterFree rest

/-- One `(child, parent)` pair of `_process_sequence_group_samples`.
`isParent` records the source's `seq is parent` object-identity test: it is
false exactly for freshly forked children. -/
structure ChildEntry where
  seq : Sequence
  parentId : Nat
  isParent : Bool
deriving DecidableEq, Repr

/-- State threaded through the sample-application loop of
`_process_sequence_group_samples`. -/
structure P1State where
  group : SequenceGroup
  counter : Nat
  entries : List ChildEntry
  trace : List SchedEvent
deriving Repr

/-- The bucketing `parent_child_dict[sample.parent_seq_id].append(sample)`
(source lines 400-405), read back per parent.  (Python would raise a
`KeyError` on a sample whose parent is not a running member; the engine
never produces such samples.) -/
def childSamplesFor (samples : List SequenceOutputs) (parentId : Nat) : List SequenceOutputs :=
  samples.filter (fun s => decide (s.parentSeqId = parentId))

/-- The `for child_sample in child_samples[:-1]` fork loop (source lines
422-428): each sample forks the parent under the next fresh counter id and
appends its token. -/
def forkChildren (parent : Sequence) (promptChunkLen : Nat) :
    List SequenceOutputs → Nat → Nat × List ChildEntry
  | [], counter => (counter, [])
  | sample :: rest, counter =>
      let child := (parent.fork counter).appendTokenId sample.outputToken promptChunkLen
      let (counter', entries) := forkChildren parent promptChunkLen rest (counter + 1)
      (counter', ⟨child, parent.seqId, false⟩ :: entries)

/-- The body of the `for parent in parent_seqs` loop (source lines 410-436).
A parent with no child samples is marked FINISHED_ABORTED, removed from the
group and freed (the status write is invisible afterwards because the object
leaves the group); otherwise all but the last sample fork the parent and the
last sample is appended to the parent object in place. -/
def processParentSamples (promptChunkLen : Nat) (samples : List SequenceOutputs)
    (st : P1State) (parent : Sequence) : P1State :=
  match childSamplesFor samples parent.seqId with
  | [] =>
      { st with group := st.group.removeSeq parent.seqId,
                trace := st.trace ++ [SchedEvent.free parent.seqId] }
  | c :: cs =>
      let childSamples := c :: cs
      let (counter', newEntries) :=
        forkChildren parent promptChunkLen childSamples.dropLast st.counter
      let lastSample := childSamples.getLast (by simp)
      let parent' := parent.appendTokenId lastSample.outputToken promptChunkLen
      { group := st.group.updateSeq parent',
        counter := counter',
        entries := st.entries ++ newEntries ++ [⟨parent', parent.seqId, true⟩],
        trace := st.trace }

/-- Phase 1 of `_process_sequence_group_samples`: apply the samples to every
running parent (source lines 398-436). -/
def applySamplesPhase (g : SequenceGroup) (promptChunkLen : Nat)
    (samples : List SequenceOutputs) (counter : Nat) : P1State :=
  g.runningSeqs.foldl (processParentSamples promptChunkLen samples) ⟨g, counter, [], []⟩

/-- Phase 2 per sequence (source lines 438-442): sequences whose prompt is
fully processed are decoded and stop-checked; the others are skipped. -/
def decodeAndCheckStop (ctx : EngineCtx) (sp : SamplingParams) (s : Sequence) : Sequence :=
  if s.isPromptProcessingFinished then
    checkStop ctx.maxModelLen ctx.eosTokenId sp (decodeSequence ctx s)
  else
    s

/-- Phase 2 over the whole `(child, parent)` list; the mutation of a reused
parent object is mirrored into the group's copy. -/
def decodePhase (ctx : EngineCtx) (sp : SamplingParams) (st : P1State) : P1State :=
  let entries := st.entries.map (fun e => { e with seq := decodeAndCheckStop ctx sp e.seq })
  let group := entries.foldl
    (fun g e => if e.isParent then g.updateSeq e.seq else g) st.group
  { st with entries := entries, group := group }

/-- The body of the add/fork loops (source lines 448-452 and 543-547): a
freshly forked child is added to the group, and `fork_seq` is recorded for
it unless it is already finished; a reused parent is skipped. -/
def addForkStep (acc : SequenceGroup × List SchedEvent) (e : ChildEntry) :
    SequenceGroup × List SchedEvent :=
  if e.isParent then acc
  else
    (acc.1.addSeq e.seq,
     if e.seq.isFinished then acc.2
     else acc.2 ++ [SchedEvent.fork e.parentId e.seq.seqId])

/-- The body of the free loops (source lines 458-460 and 551-553):
`free_seq` is recorded for a finished reused parent, which stays in the
group as candidate output. -/
def freeFinishedParentStep (tr : List SchedEvent) (e : ChildEntry) : List SchedEvent :=
  if e.isParent && e.seq.isFinished then tr ++ [SchedEvent.free e.seq.seqId] else tr

/-- The body of the unselected-removal loop (source lines 557-562): an
unselected reused parent is removed from the group and freed; an unselected
freshly forked child is silently discarded. -/
def removeUnselectedStep (acc : SequenceGroup × List SchedEvent) (e : ChildEntry) :
    SequenceGroup × List SchedEvent :=
  if e.isParent then (acc.1.removeSeq e.seq.seqId, acc.2 ++ [SchedEvent.free e.seq.seqId])
  else acc

/-- The non-beam finalization (source lines 444-461): first the add/fork loop
over `(child, parent)` pairs, then the free loop for finished reused
parents. -/
def nonBeamFinalize (st : P1State) : SequenceGroup × List SchedEvent :=
  let (g1, tr1) := st.entries.foldl addForkStep (st.group, st.trace)
  let tr2 := st.entries.foldl freeFinishedParentStep tr1
  (g1, tr2)

/-- An element of `all_finished_seqs` (source lines 470-477): a finished
sequence together with the `is_new` marker.  For an existing finished
sequence the source stores `parent = None`; the `parentId`/`isParent` fields
of its wrapped entry are never consulted (only `is_new` entries reach the
selected/unselected lists), so they carry the dummy values `seqId`/`true`. -/
structure FinishedEntry where
  entry : ChildEntry
  isNew : Bool
deriving DecidableEq, Repr

/-- Python's `list.sort` is stable; `pyInsert`/`pySort` implement a stable
insertion sort, which produces the identical list for the comparator
`le x y := key y ≤ key x` used with `key=..., reverse=True`. -/
def pyInsert (le : α → α → Bool) (a : α) : List α → List α
  | [] => [a]
  | b :: l => if le a b then a :: b :: l else b :: pyInsert le a l

def pySort (le : α → α → Bool) : List α → List α
  | [] => []
  | a :: l => pyInsert le a (pySort le l)

/-- `sort(key=..., reverse=True)` on a rational sort key: stable descending
order. -/
def pySortDesc (key : α → Rat) (l : List α) : List α :=
  pySort (fun x y => decide (key y ≤ key x)) l

/-- The sort key of both beam-search sorts: the beam-search score at the
sequence's current length (source lines 479-482 and 507-510). -/
def beamKey (ctx : EngineCtx) (e : ChildEntry) : Rat :=
  ctx.bscore e.seq none

def finishedKey (ctx : EngineCtx) (e : FinishedEntry) : Rat :=
  beamKey ctx e.entry

/-- Source lines 473-477: `existing_finished_seqs + new_finished_seqs`, the
unsorted concatenation (existing entries first, newly finished children in
`(child, parent)` order). -/
def beamAllFinished (existingFinished : List Sequence) (entries : List ChildEntry) :
    List FinishedEntry :=
  existingFinished.map (fun s => ⟨⟨s, s.seqId, true⟩, false⟩) ++
    (entries.filter (fun e => e.seq.isFinished)).map (fun e => ⟨e, true⟩)

/-- Source lines 470-482: the finished sequences sorted by score
descending. -/
def beamAllFinishedSorted (ctx : EngineCtx) (existingFinished : List Sequence)
    (entries : List ChildEntry) : List FinishedEntry :=
  pySortDesc (finishedKey ctx) (beamAllFinished existingFinished entries)

/-- Source lines 504-510: the still-running children sorted by score
descending. -/
def beamRunningSorted (ctx : EngineCtx) (entries : List ChildEntry) : List ChildEntry :=
  pySortDesc (beamKey ctx) (entries.filter (fun e => !e.seq.isFinished))

/-- Source lines 512-525: stop when no child is still running; continue when
fewer than `beam_width` sequences are finished; otherwise ask
`_check_beam_search_early_stopping` with the best running child and the
worst of the top `beam_width` finished sequences.  (The fallback arm is
unreachable: it needs `best_of = 0`, which `SamplingParams` forbids —
`best_of ≥ n ≥ 1` — and on which Python itself would index-error.) -/
def beamStopDecision (ctx : EngineCtx) (sp : SamplingParams)
    (allFinishedSorted : List FinishedEntry) (runningSorted : List ChildEntry) : Bool :=
  if runningSorted.isEmpty then true
  else if allFinishedSorted.length < sp.bestOf then false
  else
    match runningSorted, allFinishedSorted.drop (sp.bestOf - 1) with
    | bestRunning :: _, currentWorst :: _ =>
        checkBeamSearchEarlyStopping ctx sp.earlyStopping sp
          bestRunning.seq currentWorst.entry.seq
    | _, _ => false

/-- Source line 483-487 and 527-539: the `(seq, parent)` pairs appended to
`selected_child_seqs` — the newly finished sequences in the top
`beam_width` of the sorted finished list, followed (when the beam is not
stopped) by the top `beam_width` running children. -/
def beamSelectedEntries (ctx : EngineCtx) (sp : SamplingParams)
    (existingFinished : List Sequence) (entries : List ChildEntry) : List ChildEntry :=
  let allFinished := beamAllFinishedSorted ctx existingFinished entries
  let runningSorted := beamRunningSorted ctx entries
  let stopBeamSearch := beamStopDecision ctx sp allFinished runningSorted
  ((allFinished.take sp.bestOf).filter (·.isNew)).map (·.entry) ++
    (if stopBeamSearch then [] else runningSorted.take sp.bestOf)

/-- Source lines 488-495 and 527-539: the pairs appended to
`unselected_child_seqs` — the newly finished sequences below the
`beam_width` cut, followed by every running child when the beam stops, or
by the running children beyond the top `beam_width` otherwise. -/
def beamUnselectedEntries (ctx : EngineCtx) (sp : SamplingParams)
    (existingFinished : List Sequence) (entries : List ChildEntry) : List ChildEntry :=
  let allFinished := beamAllFinishedSorted ctx existingFinished entries
  let runningSorted := beamRunningSorted ctx entries
  let stopBeamSearch := beamStopDecision ctx sp allFinished runningSorted
  ((allFinished.drop sp.bestOf).filter (·.isNew)).map (·.entry) ++
    (if stopBeamSearch then runningSorted else runningSorted.drop sp.bestOf)

/-- Source lines 496-499: the existing finished sequences below the
`beam_width` cut, which are removed from the group. -/
def beamRemovedExisting (ctx : EngineCtx) (sp : SamplingParams)
    (existingFinished : List Sequence) (entries : List ChildEntry) : List FinishedEntry :=
  ((beamAllFinishedSorted ctx existingFinished entries).drop sp.bestOf).filter
    (fun e => !e.isNew)

/-- The beam-search finalization (source lines 463-562): drop the low-score
existing finished sequences, then run the add/fork loop over the selected
pairs, the free loop for finished reused parents, and the remove/free loop
for unselected reused parents — in that order.  (The source builds the
selected/unselected lists and performs the existing-sequence removals in a
single pass over the sorted finished list before any of those loops; the
embedding separates list construction from the removals, with the same
effect, since they touch disjoint state.) -/
def beamFinalize (ctx : EngineCtx) (sp : SamplingParams) (existingFinished : List Sequence)
    (st : P1State) : SequenceGroup × List SchedEvent :=
  let g1 := (beamRemovedExisting ctx sp existingFinished st.entries).foldl
    (fun g e => g.removeSeq e.entry.seq.seqId) st.group
  let selected := beamSelectedEntries ctx sp existingFinished st.entries
  let unselected := beamUnselectedEntries ctx sp existingFinished st.entries
  let (g2, tr1) := selected.foldl addForkStep (g1, st.trace)
  let tr2 := selected.foldl freeFinishedParentStep tr1
  unselected.foldl removeUnselectedStep (g2, tr2)

/-- Source `LLMEngine._process_sequence_group_samples` (lines 395-562):
returns the group after processing, the new sequence counter, and the trace
of scheduler calls issued. -/
def processSequenceGroupSamples (ctx : EngineCtx) (g : SequenceGroup)
    (promptChunkLen : Nat) (samples : List SequenceOutputs) (counter : Nat) :
    SequenceGroup × Nat × List SchedEvent :=
  let existingFinished := g.finishedSeqs
  let st1 := applySamplesPhase g promptChunkLen samples counter
  let st2 := decodePhase ctx g.samplingParams st1
  if g.samplingParams.useBeamSearch then
    let (g', tr) := beamFinalize ctx g.samplingParams existingFinished st2
    (g', st2.counter, tr)
  else
    let (g', tr) := nonBeamFinalize st2
    (g', st2.counter, tr)

/-- Parents of the group's running sequences that receive no child sample
this step: exactly the sequences the source marks FINISHED_ABORTED and frees
during sample application (lines 413-420). -/
def zeroChildSampleParents (g : SequenceGroup) (samples : List SequenceOutputs) : List Nat :=
  (g.runningSeqs.filter (fun p => (childSamplesFor samples p.seqId).isEmpty)).map (·.seqId)

/-- The `(child, parent)` list of one group's step, after sample application
and the decode/stop-check phase: the state in which the beam branch sorts
and selects. -/
def midEntries (ctx : EngineCtx) (g : SequenceGroup) (promptChunkLen : Nat)
    (samples : List SequenceOutputs) (counter : Nat) : List ChildEntry :=
  (decodePhase ctx g.samplingParams
    (applySamplesPhase g promptChunkLen samples counter)).entries

/-- Modelled from the spec (§3 SchedulerOutputs): the per-step plan value
object produced by the scheduler (the scheduler implementation is outside
the snapshot). -/
structure SchedulerOutputs where
  scheduledSeqGroups : List SequenceGroup
  promptChunkLens : List Nat
  blocksToSwapIn : List (Nat × Nat)
  blocksToSwapOut : List (Nat × Nat)
  blocksToCopy : List (Nat × List Nat)
  ignoredSeqGroups : List SequenceGroup
deriving DecidableEq, Repr

/-- Modelled from the spec (§3): `is_empty()` iff no scheduled groups and no
block movements. -/
def SchedulerOutputs.isEmpty (so : SchedulerOutputs) : Bool :=
  so.scheduledSeqGroups.isEmpty && so.blocksToSwapIn.isEmpty &&
    so.blocksToSwapOut.isEmpty && so.blocksToCopy.isEmpty

/-- Modelled from the spec (§4.F): a `RequestOutput` carries the request id,
an entry per member sequence, and the all-finished flag. -/
structure RequestOutput where
  requestId : String
  entries : List (Nat × String × SequenceStatus)
  finished : Bool
deriving DecidableEq, Repr

/-- Modelled from the spec (§4.F): `RequestOutput.from_seq_group`. -/
def RequestOutput.fromSeqGroup (g : SequenceGroup) : RequestOutput :=
  { requestId := g.requestId,
    entries := g.seqs.map (fun s => (s.seqId, s.outputText, s.status)),
    finished := g.seqs.all (·.isFinished) }

/-- Python `zip(a, b, c)`: truncates to the shortest argument. -/
def zip3 : List α → List β → List γ → List (α × β × γ)
  | a :: as, b :: bs, c :: cs => (a, b, c) :: zip3 as bs cs
  | _, _, _ => []

/-- The `for seq_group, prompt_chunk_len, samples in zip(...)` loop of
`_process_model_outputs` (source lines 571-574), threading the engine's
sequence counter and accumulating the processed groups and the scheduler
call trace. -/
def processScheduled (ctx : EngineCtx) :
    List (SequenceGroup × Nat × List SequenceOutputs) → Nat →
    List SequenceGroup × Nat × List SchedEvent
  | [], counter => ([], counter, [])
  | (g, promptChunkLen, samples) :: rest, counter =>
      let (g', counter', tr) :=
        processSequenceGroupSamples ctx g promptChunkLen samples counter
      let (gs, counter'', trs) := processScheduled ctx rest counter'
      (g' :: gs, counter'', tr ++ trs)

/-- Source `LLMEngine._process_model_outputs` (lines 564-590): process every
scheduled group against its samples, call `free_finished_seq_groups`, then
emit one `RequestOutput` per group in `scheduled_seq_groups +
ignored_seq_groups`. -/
def processModelOutputs (ctx : EngineCtx) (output : List (List SequenceOutputs))
    (so : SchedulerOutputs) (counter : Nat) :
    List RequestOutput × Nat × List SchedEvent :=
  let triples := zip3 so.scheduledSeqGroups so.promptChunkLens output
  let (processed, counter', tr) := processScheduled ctx triples counter
  let updatedScheduled := processed ++ so.scheduledSeqGroups.drop triples.length
  let outs := (updatedScheduled ++ so.ignoredSeqGroups).map RequestOutput.fromSeqGroup
  (outs, counter', tr ++ [SchedEvent.freeFinishedGroups])

/-- Source `LLMEngine._run_workers` without `get_all_outputs` (lines
774-781): assert every worker's result equals the first and return the
first; `none` models the assertion failure.  (With `get_all_outputs` the
call just returns the list unchanged.) -/
def runWorkersJoin [DecidableEq α] (allOutputs : List α) : Option α :=
  match allOutputs with
  | [] => none
  | output :: rest => if rest.all (fun o => decide (o = output)) then some output else none

/-- The result of one `LLMEngine.step` call.  `trace` is the list of
scheduler/block-manager calls issued while processing outputs,
`executedModel` records whether `execute_model` was broadcast, and
`modelExecutionTime` is the minimum across workers (0 on the empty-plan path
that never executes). -/
structure StepResult where
  outputs : List RequestOutput
  counter : Nat
  trace : List SchedEvent
  executedModel : Bool
  modelExecutionTime : Nat
deriving DecidableEq, Repr

/-- Source `LLMEngine.step` (lines 592-644), as a function of the plan the
scheduler returned and the per-worker `(sampler_output, execution_time)`
pairs.  An empty plan short-circuits to the ignored groups' outputs; a
non-empty plan gates on all sampler outputs being equal (`none` models the
assertion failure; it also covers the unreachable case of an engine without
workers) and consumes the first worker's output; the returned outputs are
`_process_model_outputs(...) + ignored`, where `ignored` is the conversion
of `ignored_seq_groups` already produced by `_schedule` (lines 341-349). -/
def engineStep (ctx : EngineCtx) (so : SchedulerOutputs)
    (workerOutputs : List (List (List SequenceOutputs) × Nat)) (counter : Nat) :
    Option StepResult :=
  let ignored := so.ignoredSeqGroups.map RequestOutput.fromSeqGroup
  if so.isEmpty then
    some ⟨ignored, counter, [], false, 0⟩
  else
    match workerOutputs with
    | [] => none
    | w :: ws =>
        if (w :: ws).all (fun p => decide (p.1 = w.1)) then
          let (outs, counter', tr) := processModelOutputs ctx w.1 so counter
          some ⟨outs ++ ignored, counter', tr, true, (ws.map (·.2)).foldl min w.2⟩
        else none

/-- Source `LLMEngine._init_cache` (lines 226-255) as a function of the
per-worker `profile_num_available_blocks` results: take the element-wise
minimum, fail before any `init_cache_engine` broadcast when the GPU budget
is non-positive, and otherwise return the finalized `(num_gpu_blocks,
num_cpu_blocks)` that is broadcast to `init_cache_engine`.  (Python's
`min()` on an empty sequence raises; the engine always has at least one
worker.) -/
def initCache (numBlocks : List (Int × Int)) : Except String (Int × Int) :=
  match numBlocks with
  | [] => Except.error "min() arg is an empty sequence"
  | b :: bs =>
      let numGpuBlocks := bs.foldl (fun acc x => min acc x.1) b.1
      let numCpuBlocks := bs.foldl (fun acc x => min acc x.2) b.2
      if numGpuBlocks ≤ 0 then
        Except.error "No available memory for the cache blocks."
      else
        Except.ok (numGpuBlocks, numCpuBlocks)

/-- Source lines 159-160 and 213-214: the rendezvous id broadcast to
`init_model` is `random.randint(0, 2**32 - 1) + self.replica_id`; the draw
is inclusive on both ends. -/
def rendezvousId (draw replicaId : Nat) : Nat :=
  draw + replicaId

/-! Concrete fixtures used by the counterexamples and witnesses. -/

/-- A context whose abstract score and detokenizer are trivial (the non-beam
fixtures never consult the score). -/
def ctxFix : EngineCtx := ⟨fun _ _ => 0, fun _ => "", 99, 1000⟩

/-- Non-beam sampling parameters used by the trace fixtures. -/
def spFix : SamplingParams :=
  { n := 2, bestOf := 2, useBeamSearch := false, lengthPenalty := 0,
    earlyStopping := .eFalse, maxTokens := 100, stop := [], ignoreEos := true }

/-- Running parent that will receive no child sample. -/
def seqFixA : Sequence := ⟨0, [1], [], "", .running, 1, true⟩

/-- Running parent that will receive two child samples (hence fork). -/
def seqFixB : Sequence := ⟨1, [1], [], "", .running, 1, true⟩

def groupFix : SequenceGroup := ⟨"r0", spFix, [seqFixA, seqFixB]⟩

/-- Two samples for parent 1 and none for parent 0. -/
def samplesFix : List SequenceOutputs := [⟨1, 5⟩, ⟨1, 6⟩]

/-- Sampling parameters with a single, empty stop string. -/
def spEmptyStop : SamplingParams :=
  { n := 1, bestOf := 1, useBeamSearch := false, lengthPenalty := 0,
    earlyStopping := .eFalse, maxTokens := 100, stop := [""], ignoreEos := true }

/-- A running sequence with non-empty output text. -/
def seqFixC : Sequence := ⟨0, [1], [2], "ab", .running, 1, true⟩

/-- A second such sequence for the frame-effect counterexample. -/
def seqFixD : Sequence := ⟨3, [1], [2], "xy", .running, 1, true⟩

/-- An already-ignored group, used as `ignored_seq_groups` content. -/
def groupIgnFix : SequenceGroup := ⟨"ri", spFix, [⟨7, [1], [], "", .finishedIgnored, 0, false⟩]⟩

/-- A plan that is non-empty only through a block move, with one ignored
group: the smallest plan exhibiting the double emission of ignored groups. -/
def soFix : SchedulerOutputs := ⟨[], [], [(0, 1)], [], [], [groupIgnFix]⟩

/-- An empty plan carrying one ignored group. -/
def soEmptyFix : SchedulerOutputs := ⟨[], [], [], [], [], [groupIgnFix]⟩

/-- A one-sequence scheduled group for the step-level witnesses. -/
def groupSchedFix : SequenceGroup := ⟨"rs", spFix, [⟨5, [1], [], "", .running, 1, true⟩]⟩

/-- A plan with one scheduled and one ignored group. -/
def soStepFix : SchedulerOutputs := ⟨[groupSchedFix], [0], [], [], [], [groupIgnFix]⟩

/-- Piecewise-literal beam-search score used by the beam fixtures (kernel
reducible, unlike rational arithmetic). -/
def bscoreFix : Sequence → Option Nat → Rat := fun s l =>
  match l with
  | none => if s.seqId = 0 then 5 else if s.seqId = 1 then 4
            else if s.seqId = 2 then 3 else 1
  | some _ => 2

def ctxBeamFix : EngineCtx := ⟨bscoreFix, fun _ => "", 99, 8⟩

/-- Beam-search sampling parameters with beam width 2. -/
def spBeamFix : SamplingParams :=
  { n := 2, bestOf := 2, useBeamSearch := true, lengthPenalty := 1,
    earlyStopping := .eFalse, maxTokens := 2, stop := [], ignoreEos := false }

def seqBeamFin0 : Sequence := ⟨0, [1], [99], "x", .finishedStopped, 1, true⟩

def seqBeamRun1 : Sequence := ⟨1, [1], [5], "y", .running, 1, true⟩

def seqBeamRun2 : Sequence := ⟨2, [1], [6], "z", .running, 1, true⟩

/-- A beam-search group: one finished member, two running parents. -/
def groupBeamFix : SequenceGroup := ⟨"rb", spBeamFix, [seqBeamFin0, seqBeamRun1, seqBeamRun2]⟩

/-- One (eos) sample for parent 1, two samples for parent 2. -/
def samplesBeamFix : List SequenceOutputs := [⟨1, 99⟩, ⟨2, 7⟩, ⟨2, 8⟩]

/-- Finished-entry fixtures for the stop-decision witness. -/
def finEntryFix0 : FinishedEntry := ⟨⟨seqBeamFin0, 0, true⟩, false⟩

def finEntryFix1 : FinishedEntry := ⟨⟨seqBeamRun1, 1, true⟩, true⟩

def runEntryFix2 : ChildEntry := ⟨seqBeamRun2, 2, true⟩

end Sarathi

namespace Sarathi

/-! Generic list lemmas used by several claims. -/

theorem foldl_min_le_init {α : Type} [LinearOrder α] (l : List α) (a : α) :
    l.foldl min a ≤ a := by
  induction l generalizing a with
  | nil => exact le_refl a
  | cons x xs ih =>
      simp only [List.foldl_cons]
      exact le_trans (ih (min a x)) (min_le_left a x)

theorem foldl_min_le_mem {α : Type} [LinearOrder α] {l : List α} {b : α} (a : α)
    (hb : b ∈ l) : l.foldl min a ≤ b := by
  induction l generalizing a with
  | nil => cases hb
  | cons x xs ih =>
      simp only [List.foldl_cons]
      rcases List.mem_cons.mp hb with h | h
      · subst h
        exact le_trans (foldl_min_le_init xs (min a b)) (min_le_right a b)
      · exact ih (min a x) h

theorem foldl_min_eq_init_or_mem {α : Type} [LinearOrder α] (l : List α) (a : α) :
    l.foldl min a = a ∨ l.foldl min a ∈ l := by
  induction l generalizing a with
  | nil => exact Or.inl rfl
  | cons x xs ih =>
      simp only [List.foldl_cons]
      rcases ih (min a x) with h | h
      · rcases le_total a x with hax | hxa
        · rw [h, min_eq_left hax]
          exact Or.inl rfl
        · rw [h, min_eq_right hxa]
          exact Or.inr (List.mem_cons_self x xs)
      · exact Or.inr (List.mem_cons_of_mem x h)

theorem initCache_cons (b : Int × Int) (bs : List (Int × Int)) :
    initCache (b :: bs) =
      (if bs.foldl (fun acc x => min acc x.1) b.1 ≤ 0 then
        Except.error "No available memory for the cache blocks."
      else
        Except.ok (bs.foldl (fun acc x => min acc x.1) b.1,
                   bs.foldl (fun acc x => min acc x.2) b.2)) := rfl

/-- C9 (corrected): at the maximal draw `2^32 - 1` with replica id 1 the
rendezvous id equals `2^32`, which is not a 32-bit unsigned value, refuting
the claim that the broadcast id is always 32-bit unsigned. -/
theorem c9_counterexample :
    2 ^ 32 - 1 ≤ 2 ^ 32 - 1 ∧
    rendezvousId (2 ^ 32 - 1) 1 = 2 ^ 32 ∧
    ¬ rendezvousId (2 ^ 32 - 1) 1 < 2 ^ 32 := by
  refine ⟨le_refl _, by decide, by decide⟩

/-- C9 (amended): the rendezvous id equals the random draw (from the
inclusive range `[0, 2^32 - 1]`) plus the per-replica id offset; it is
bounded by `2^32 - 1 + replica_id`, and is a 32-bit unsigned value whenever
the replica id is 0 (but not in general, see the counterexample). -/
theorem c9_rendezvous_id (draw replicaId : Nat) (hdraw : draw ≤ 2 ^ 32 - 1) :
    rendezvousId draw replicaId = draw + replicaId ∧
    rendezvousId draw replicaId ≤ 2 ^ 32 - 1 + replicaId ∧
    (replicaId = 0 → rendezvousId draw replicaId < 2 ^ 32) := by
  unfold rendezvousId
  omega

/-- Witness for `c9_rendezvous_id` at draw 5, replica id 0. -/
theorem c9_rendezvous_id_witness :
    5 ≤ 2 ^ 32 - 1 ∧
    (rendezvousId 5 0 = 5 + 0 ∧
     rendezvousId 5 0 ≤ 2 ^ 32 - 1 + 0 ∧
     (0 = 0 → rendezvousId 5 0 < 2 ^ 32)) :=
  ⟨by decide, c9_rendezvous_id 5 0 (by decide)⟩

/-- C8 (confirmed): `_init_cache` takes the element-wise minimum of the
per-worker `(gpu_blocks, cpu_blocks)` profiles; it fails (before any
`init_cache_engine` broadcast) exactly when some worker profiled a
non-positive GPU block count, and otherwise the finalized config it
broadcasts to `init_cache_engine` is a lower bound of every profile, is
attained component-wise by some profile, and has a positive GPU count. -/
theorem c8_init_cache_minimum (profile : List (Int × Int)) (b : Int × Int)
    (bs : List (Int × Int)) (hprofile : profile = b :: bs) :
    ((∃ msg, initCache profile = Except.error msg) ↔ ∃ p ∈ profile, p.1 ≤ 0) ∧
    (∀ g c, initCache profile = Except.ok (g, c) →
      0 < g ∧ (∀ p ∈ profile, g ≤ p.1 ∧ c ≤ p.2) ∧
      (∃ p ∈ profile, p.1 = g) ∧ (∃ p ∈ profile, p.2 = c)) := by
  subst hprofile
  have hg : (bs.foldl (fun acc x => min acc x.1) b.1) = (bs.map (·.1)).foldl min b.1 := by
    rw [List.foldl_map]
  have hc : (bs.foldl (fun acc x => min acc x.2) b.2) = (bs.map (·.2)).foldl min b.2 := by
    rw [List.foldl_map]
  have hgle : ∀ p ∈ b :: bs, bs.foldl (fun acc x => min acc x.1) b.1 ≤ p.1 := by
    intro p hp
    rw [hg]
    rcases List.mem_cons.mp hp with h | h
    · subst h; exact foldl_min_le_init _ _
    · exact foldl_min_le_mem _ (List.mem_map_of_mem _ h)
  have hcle : ∀ p ∈ b :: bs, bs.foldl (fun acc x => min acc x.2) b.2 ≤ p.2 := by
    intro p hp
    rw [hc]
    rcases List.mem_cons.mp hp with h | h
    · subst h; exact foldl_min_le_init _ _
    · exact foldl_min_le_mem _ (List.mem_map_of_mem _ h)
  have hgmem : ∃ p ∈ b :: bs, p.1 = bs.foldl (fun acc x => min acc x.1) b.1 := by
    rw [hg]
    rcases foldl_min_eq_init_or_mem (bs.map (·.1)) b.1 with h | h
    · exact ⟨b, List.mem_cons_self _ _, h.symm⟩
    · rcases List.mem_map.mp h with ⟨p, hp, hpe⟩
      exact ⟨p, List.mem_cons_of_mem _ hp, hpe⟩
  have hcmem : ∃ p ∈ b :: bs, p.2 = bs.foldl (fun acc x => min acc x.2) b.2 := by
    rw [hc]
    rcases foldl_min_eq_init_or_mem (bs.map (·.2)) b.2 with h | h
    · exact ⟨b, List.mem_cons_self _ _, h.symm⟩
    · rcases List.mem_map.mp h with ⟨p, hp, hpe⟩
      exact ⟨p, List.mem_cons_of_mem _ hp, hpe⟩
  rw [initCache_cons]
  by_cases hmin : bs.foldl (fun acc x => min acc x.1) b.1 ≤ 0
  · rw [if_pos hmin]
    constructor
    · constructor
      · intro _
        rcases hgmem with ⟨p, hp, hpe⟩
        exact ⟨p, hp, by rw [hpe]; exact hmin⟩
      · intro _
        exact ⟨_, rfl⟩
    · intro g c hok
      cases hok
  · rw [if_neg hmin]
    push_neg at hmin
    constructor
    · constructor
      · rintro ⟨msg, hmsg⟩
        cases hmsg
      · rintro ⟨p, hp, hple⟩
        exact absurd (le_trans (hgle p hp) hple) (not_le.mpr hmin)
    · intro g c hok
      rcases hok with ⟨⟩
      refine ⟨hmin, ?_, hgmem, hcmem⟩
      intro p hp
      exact ⟨hgle p hp, hcle p hp⟩

end Sarathi

namespace Sarathi

/-- Witness for `c8_init_cache_minimum` on the two-worker profile
`[(3, 7), (2, 9)]`. -/
theorem c8_init_cache_minimum_witness :
    [((3 : Int), (7 : Int)), (2, 9)] = (3, 7) :: [(2, 9)] ∧
    (((∃ msg, initCache [((3 : Int), (7 : Int)), (2, 9)] = Except.error msg) ↔
        ∃ p ∈ [((3 : Int), (7 : Int)), (2, 9)], p.1 ≤ 0) ∧
     (∀ g c, initCache [((3 : Int), (7 : Int)), (2, 9)] = Except.ok (g, c) →
        0 < g ∧ (∀ p ∈ [((3 : Int), (7 : Int)), (2, 9)], g ≤ p.1 ∧ c ≤ p.2) ∧
        (∃ p ∈ [((3 : Int), (7 : Int)), (2, 9)], p.1 = g) ∧
        (∃ p ∈ [((3 : Int), (7 : Int)), (2, 9)], p.2 = c))) :=
  ⟨rfl, c8_init_cache_minimum _ (3, 7) [(2, 9)] rfl⟩

/-- C7 (confirmed): when the scheduler's plan is empty, `step` returns
exactly the RequestOutputs converted from the plan's ignored groups, does
not execute the model on any worker, and issues no scheduler calls. -/
theorem c7_empty_plan_step (ctx : EngineCtx) (so : SchedulerOutputs)
    (workerOutputs : List (List (List SequenceOutputs) × Nat)) (counter : Nat)
    (hempty : so.isEmpty = true) :
    engineStep ctx so workerOutputs counter =
      some ⟨so.ignoredSeqGroups.map RequestOutput.fromSeqGroup, counter, [], false, 0⟩ := by
  unfold engineStep
  rw [hempty]
  rfl

/-- Witness for `c7_empty_plan_step` on an empty plan with one ignored
group and one worker. -/
theorem c7_empty_plan_step_witness :
    soEmptyFix.isEmpty = true ∧
    engineStep ctxFix soEmptyFix [([], 7)] 0 =
      some ⟨soEmptyFix.ignoredSeqGroups.map RequestOutput.fromSeqGroup, 0, [], false, 0⟩ :=
  ⟨by decide, c7_empty_plan_step ctxFix soEmptyFix [([], 7)] 0 (by decide)⟩

/-- `step` on a non-empty plan, reduced to its equality gate. -/
theorem engineStep_nonEmpty_eq (ctx : EngineCtx) (so : SchedulerOutputs) (counter : Nat)
    (w : List (List SequenceOutputs) × Nat)
    (ws : List (List (List SequenceOutputs) × Nat)) (hne : so.isEmpty = false) :
    engineStep ctx so (w :: ws) counter =
      (if (w :: ws).all (fun p => decide (p.1 = w.1)) then
        some ⟨(processModelOutputs ctx w.1 so counter).1 ++
                so.ignoredSeqGroups.map RequestOutput.fromSeqGroup,
              (processModelOutputs ctx w.1 so counter).2.1,
              (processModelOutputs ctx w.1 so counter).2.2, true,
              (ws.map (·.2)).foldl min w.2⟩
      else none) := by
  unfold engineStep
  rw [hne]
  rfl

/-- On a successful non-empty step, the outputs are those computed from the
first worker's sampler output, with the ignored conversions appended. -/
theorem engineStep_some_spec (ctx : EngineCtx) (so : SchedulerOutputs) (counter : Nat)
    (w : List (List SequenceOutputs) × Nat)
    (ws : List (List (List SequenceOutputs) × Nat)) (hne : so.isEmpty = false)
    (res : StepResult) (hres : engineStep ctx so (w :: ws) counter = some res) :
    res.outputs = (processModelOutputs ctx w.1 so counter).1 ++
      so.ignoredSeqGroups.map RequestOutput.fromSeqGroup ∧
    res.executedModel = true := by
  rw [engineStep_nonEmpty_eq ctx so counter w ws hne] at hres
  by_cases h : (w :: ws).all (fun p => decide (p.1 = w.1)) = true
  · rw [if_pos h] at hres
    cases hres
    exact ⟨rfl, rfl⟩
  · rw [if_neg (by simpa using h)] at hres
    exact Option.noConfusion hres

/-- C2 (confirmed): `_run_workers` without `get_all_outputs` returns the
first worker result iff every result equals it, and hits its assertion
(modelled as `none`) iff some result differs; likewise `step` on a
non-empty plan fails its assertion iff some worker's sampler output differs
from the first worker's, and on success its outputs are computed by
consuming the first worker's sampler output. -/
theorem c2_worker_equality_gate {α : Type} [DecidableEq α]
    (outs : List α) (x : α) (rest : List α) (houts : outs = x :: rest)
    (ctx : EngineCtx) (so : SchedulerOutputs)
    (wos : List (List (List SequenceOutputs) × Nat)) (counter : Nat)
    (w : List (List SequenceOutputs) × Nat)
    (ws : List (List (List SequenceOutputs) × Nat)) (hw : wos = w :: ws)
    (hne : so.isEmpty = false) :
    (runWorkersJoin outs = some x ↔ ∀ y ∈ outs, y = x) ∧
    (runWorkersJoin outs = none ↔ ∃ y ∈ outs, y ≠ x) ∧
    (engineStep ctx so wos counter = none ↔ ∃ p ∈ wos, p.1 ≠ w.1) ∧
    (∀ res, engineStep ctx so wos counter = some res →
      res.outputs = (processModelOutputs ctx w.1 so counter).1 ++
        so.ignoredSeqGroups.map RequestOutput.fromSeqGroup ∧
      res.executedModel = true) := by
  subst houts
  subst hw
  have hjoin : runWorkersJoin (x :: rest) =
      (if rest.all (fun o => decide (o = x)) then some x else none) := rfl
  have hall : rest.all (fun o => decide (o = x)) = true ↔ ∀ y ∈ x :: rest, y = x := by
    simp [List.all_eq_true]
  have hstep := engineStep_nonEmpty_eq ctx so counter w ws hne
  have hgate : (w :: ws).all (fun p => decide (p.1 = w.1)) = true ↔
      ∀ p ∈ w :: ws, p.1 = w.1 := by
    simp [List.all_eq_true]
  refine ⟨?_, ?_, ?_, ?_⟩
  · rw [hjoin]
    by_cases h : rest.all (fun o => decide (o = x)) = true
    · rw [if_pos h]
      exact ⟨fun _ => hall.mp h, fun _ => rfl⟩
    · rw [if_neg (by simpa using h)]
      constructor
      · intro hcontra
        exact Option.noConfusion hcontra
      · intro hy
        exact absurd (hall.mpr hy) h
  · rw [hjoin]
    by_cases h : rest.all (fun o => decide (o = x)) = true
    · rw [if_pos h]
      constructor
      · intro hcontra
        exact Option.noConfusion hcontra
      · rintro ⟨y, hy, hne'⟩
        exact absurd (hall.mp h y hy) hne'
    · rw [if_neg (by simpa using h)]
      simp only [List.all_eq_true, decide_eq_true_eq] at h
      push_neg at h
      rcases h with ⟨y, hy, hne'⟩
      exact ⟨fun _ => ⟨y, List.mem_cons_of_mem x hy, hne'⟩, fun _ => rfl⟩
  · rw [hstep]
    by_cases h : (w :: ws).all (fun p => decide (p.1 = w.1)) = true
    · rw [if_pos h]
      constructor
      · intro hcontra
        exact Option.noConfusion hcontra
      · rintro ⟨p, hp, hne'⟩
        exact absurd (hgate.mp h p hp) hne'
    · rw [if_neg (by simpa using h)]
      simp only [List.all_eq_true, decide_eq_true_eq] at h
      push_neg at h
      rcases h with ⟨p, hp, hne'⟩
      exact ⟨fun _ => ⟨p, hp, hne'⟩, fun _ => rfl⟩
  · intro res hres
    rw [hstep] at hres
    by_cases h : (w :: ws).all (fun p => decide (p.1 = w.1)) = true
    · rw [if_pos h] at hres
      cases hres
      exact ⟨rfl, rfl⟩
    · rw [if_neg (by simpa using h)] at hres
      exact Option.noConfusion hres

/-- Witness for `c2_worker_equality_gate`: two agreeing worker results
`[3, 3]`, and a one-worker step on the non-empty fixture plan. -/
theorem c2_worker_equality_gate_witness :
    ([3, 3] : List Nat) = 3 :: [3] ∧
    ([(([] : List (List SequenceOutputs)), 7)]) = (([] : List (List SequenceOutputs)), 7) :: [] ∧
    soFix.isEmpty = false ∧
    ((runWorkersJoin [3, 3] = some 3 ↔ ∀ y ∈ ([3, 3] : List Nat), y = 3) ∧
     (runWorkersJoin [3, 3] = none ↔ ∃ y ∈ ([3, 3] : List Nat), y ≠ 3) ∧
     (engineStep ctxFix soFix [(([] : List (List SequenceOutputs)), 7)] 0 = none ↔
        ∃ p ∈ [(([] : List (List SequenceOutputs)), 7)],
          p.1 ≠ (([] : List (List SequenceOutputs)), 7).1) ∧
     (∀ res, engineStep ctxFix soFix [(([] : List (List SequenceOutputs)), 7)] 0 = some res →
        res.outputs =
          (processModelOutputs ctxFix (([] : List (List SequenceOutputs)), 7).1 soFix 0).1 ++
            soFix.ignoredSeqGroups.map RequestOutput.fromSeqGroup ∧
        res.executedModel = true)) :=
  ⟨rfl, rfl, by decide,
   c2_worker_equality_gate [3, 3] 3 [3] rfl ctxFix soFix _ 0 _ [] rfl (by decide)⟩

/-- The first-match loop, characterized: a `some` result is a configured
stop string that the text ends with; `none` means no configured stop string
matches. -/
theorem firstMatchingStop_some {stops : List String} {text stopStr : String}
    (h : firstMatchingStop stops text = some stopStr) :
    stopStr ∈ stops ∧ pyEndsWith text stopStr = true := by
  induction stops with
  | nil => cases h
  | cons a rest ih =>
      unfold firstMatchingStop at h
      by_cases ha : pyEndsWith text a = true
      · rw [if_pos ha] at h
        cases h
        exact ⟨List.mem_cons_self _ _, ha⟩
      · rw [if_neg ha] at h
        rcases ih h with ⟨hm, he⟩
        exact ⟨List.mem_cons_of_mem _ hm, he⟩

theorem firstMatchingStop_none {stops : List String} {text : String}
    (h : firstMatchingStop stops text = none) :
    ∀ stopStr ∈ stops, pyEndsWith text stopStr = false := by
  induction stops with
  | nil => intro str hs; cases hs
  | cons a rest ih =>
      unfold firstMatchingStop at h
      by_cases ha : pyEndsWith text a = true
      · rw [if_pos ha] at h
        cases h
      · rw [if_neg ha] at h
        intro str hs
        rcases List.mem_cons.mp hs with he | he
        · subst he
          exact Bool.eq_false_iff.mpr ha
        · exact ih h str he

/-- Python truncation by a non-empty matched suffix removes exactly that
suffix. -/
theorem pySliceDropSuffix_append {t suffix : String}
    (hsuf : pyEndsWith t suffix = true) (hne : suffix ≠ "") :
    pySliceDropSuffix t suffix.length ++ suffix = t := by
  have hdata : suffix.data <:+ t.data := by
    have := hsuf
    unfold pyEndsWith at this
    exact of_decide_eq_true this
  rcases hdata with ⟨pre, hpre⟩
  have hk : suffix.length ≠ 0 := by
    intro h0
    apply hne
    have : suffix.data = [] := List.length_eq_zero.mp h0
    cases suffix
    simp_all
  unfold pySliceDropSuffix
  rw [if_neg hk]
  have hlen : t.data.length - suffix.length = pre.length := by
    have : t.data.length = pre.length + suffix.data.length := by
      rw [← hpre, List.length_append]
    have hsl : suffix.length = suffix.data.length := rfl
    omega
  rw [hlen]
  have htake : t.data.take pre.length = pre := by
    rw [← hpre]
    exact List.take_left pre suffix.data
  rw [htake]
  cases t with
  | mk td =>
      cases suffix with
      | mk sd =>
          show String.mk (pre ++ sd) = String.mk td
          rw [hpre]

/-- C3 counterexample (corrected claim): with the configured stop list
`[""]`, the empty stop string matches `"ab"`, and the source's Python
slicing `output_text[:-0]` clears the text instead of truncating the
matched (empty) suffix from it, so the result differs from what the claim
states. -/
theorem c3_counterexample :
    firstMatchingStop spEmptyStop.stop seqFixC.outputText = some "" ∧
    (checkStop 1000 99 spEmptyStop seqFixC).outputText = "" ∧
    specDropMatchedSuffix seqFixC.outputText "" = "ab" ∧
    (checkStop 1000 99 spEmptyStop seqFixC).outputText ≠
      specDropMatchedSuffix seqFixC.outputText "" := by
  refine ⟨by decide, by decide, by decide, by decide⟩

/-- C3 (amended): the stop check applies its four rules in the fixed order
and only the first matching rule fires: (i) the first configured stop
string that is a suffix of `output_text` truncates the text via Python
slicing (clearing it when the matched string is empty) and sets
FINISHED_STOPPED; otherwise (ii) total length over `max_model_len`, then
(iii) generated length equal to `max_tokens`, set FINISHED_LENGTH_CAPPED;
then (iv) an eos last token with `ignore_eos` false sets FINISHED_STOPPED;
otherwise the sequence is unchanged. -/
theorem c3_stop_rule_order (mml eos : Nat) (sp : SamplingParams) (s : Sequence)
    (_hpp : s.promptProcessingFinished = true) :
    (∀ stopStr, firstMatchingStop sp.stop s.outputText = some stopStr →
       stopStr ∈ sp.stop ∧ pyEndsWith s.outputText stopStr = true ∧
       checkStop mml eos sp s =
         (s.withOutputText (pySliceDropSuffix s.outputText stopStr.length)).setStatus
           SequenceStatus.finishedStopped) ∧
    (firstMatchingStop sp.stop s.outputText = none →
       (∀ stopStr ∈ sp.stop, pyEndsWith s.outputText stopStr = false) ∧
       (mml < s.getLen → checkStop mml eos sp s = s.setStatus .finishedLengthCapped) ∧
       (¬ mml < s.getLen → s.getOutputLen = sp.maxTokens →
          checkStop mml eos sp s = s.setStatus .finishedLengthCapped) ∧
       (¬ mml < s.getLen → s.getOutputLen ≠ sp.maxTokens →
          sp.ignoreEos = false → s.getLastTokenId = some eos →
          checkStop mml eos sp s = s.setStatus .finishedStopped) ∧
       (¬ mml < s.getLen → s.getOutputLen ≠ sp.maxTokens →
          (sp.ignoreEos = true ∨ s.getLastTokenId ≠ some eos) →
          checkStop mml eos sp s = s)) := by
  constructor
  · intro stopStr hm
    rcases firstMatchingStop_some hm with ⟨hmem, hends⟩
    refine ⟨hmem, hends, ?_⟩
    unfold checkStop
    rw [hm]
  · intro hm
    refine ⟨firstMatchingStop_none hm, ?_, ?_, ?_, ?_⟩
    · intro hlen
      unfold checkStop
      rw [hm, if_pos hlen]
    · intro hlen hmax
      unfold checkStop
      rw [hm, if_neg hlen, if_pos hmax]
    · intro hlen hmax hie heos
      unfold checkStop
      rw [hm, if_neg hlen, if_neg hmax, if_pos ⟨hie, heos⟩]
    · intro hlen hmax hno
      unfold checkStop
      rw [hm, if_neg hlen, if_neg hmax, if_neg ?_]
      rintro ⟨hie, heos⟩
      rcases hno with hie' | heos'
      · rw [hie'] at hie
        cases hie
      · exact heos' heos

/-- Witness for `c3_stop_rule_order` on a running sequence with no stop
strings configured. -/
theorem c3_stop_rule_order_witness :
    seqFixC.promptProcessingFinished = true ∧
    ((∀ stopStr, firstMatchingStop spFix.stop seqFixC.outputText = some stopStr →
        stopStr ∈ spFix.stop ∧ pyEndsWith seqFixC.outputText stopStr = true ∧
        checkStop 1000 99 spFix seqFixC =
          (seqFixC.withOutputText
            (pySliceDropSuffix seqFixC.outputText stopStr.length)).setStatus
            SequenceStatus.finishedStopped) ∧
     (firstMatchingStop spFix.stop seqFixC.outputText = none →
        (∀ stopStr ∈ spFix.stop, pyEndsWith seqFixC.outputText stopStr = false) ∧
        (1000 < seqFixC.getLen →
           checkStop 1000 99 spFix seqFixC = seqFixC.setStatus .finishedLengthCapped) ∧
        (¬ 1000 < seqFixC.getLen → seqFixC.getOutputLen = spFix.maxTokens →
           checkStop 1000 99 spFix seqFixC = seqFixC.setStatus .finishedLengthCapped) ∧
        (¬ 1000 < seqFixC.getLen → seqFixC.getOutputLen ≠ spFix.maxTokens →
           spFix.ignoreEos = false → seqFixC.getLastTokenId = some 99 →
           checkStop 1000 99 spFix seqFixC = seqFixC.setStatus .finishedStopped) ∧
        (¬ 1000 < seqFixC.getLen → seqFixC.getOutputLen ≠ spFix.maxTokens →
           (spFix.ignoreEos = true ∨ seqFixC.getLastTokenId ≠ some 99) →
           checkStop 1000 99 spFix seqFixC = seqFixC))) :=
  ⟨rfl, c3_stop_rule_order 1000 99 spFix seqFixC rfl⟩

/-- C10 counterexample (corrected claim): on `output_text = "xy"` with stop
list `[""]`, the check clears the text rather than removing exactly the
matched (empty) stop string. -/
theorem c10_counterexample :
    firstMatchingStop spEmptyStop.stop seqFixD.outputText = some "" ∧
    (checkStop 1000 99 spEmptyStop seqFixD).outputText = "" ∧
    seqFixD.outputText = "xy" ∧
    (checkStop 1000 99 spEmptyStop seqFixD).outputText ≠
      specDropMatchedSuffix seqFixD.outputText "" := by
  refine ⟨by decide, by decide, by decide, by decide⟩

/-- C10 (amended): the stop check never touches the token lists or the
sequence id; at most one finish status is assigned (FINISHED_STOPPED or
FINISHED_LENGTH_CAPPED); only the stop-string rule modifies `output_text`,
removing exactly the matched stop string when it is non-empty and clearing
the text entirely when the matched stop string is empty; under every other
rule, and when no rule fires, `output_text` is unchanged. -/
theorem c10_stop_check_frame (mml eos : Nat) (sp : SamplingParams) (s : Sequence) :
    (checkStop mml eos sp s).promptTokenIds = s.promptTokenIds ∧
    (checkStop mml eos sp s).outputTokenIds = s.outputTokenIds ∧
    (checkStop mml eos sp s).seqId = s.seqId ∧
    (∀ stopStr, firstMatchingStop sp.stop s.outputText = some stopStr →
       (checkStop mml eos sp s).status = SequenceStatus.finishedStopped ∧
       (stopStr ≠ "" → (checkStop mml eos sp s).outputText ++ stopStr = s.outputText) ∧
       (stopStr = "" → (checkStop mml eos sp s).outputText = "")) ∧
    (firstMatchingStop sp.stop s.outputText = none →
       (checkStop mml eos sp s).outputText = s.outputText ∧
       ((checkStop mml eos sp s).status = s.status ∨
        (checkStop mml eos sp s).status = SequenceStatus.finishedStopped ∨
        (checkStop mml eos sp s).status = SequenceStatus.finishedLengthCapped)) := by
  have hcases :
      (∃ stopStr, firstMatchingStop sp.stop s.outputText = some stopStr ∧
         checkStop mml eos sp s =
           (s.withOutputText (pySliceDropSuffix s.outputText stopStr.length)).setStatus
             SequenceStatus.finishedStopped) ∨
      (firstMatchingStop sp.stop s.outputText = none ∧
         (checkStop mml eos sp s = s.setStatus SequenceStatus.finishedLengthCapped ∨
          checkStop mml eos sp s = s.setStatus SequenceStatus.finishedStopped ∨
          checkStop mml eos sp s = s)) := by
    rcases hm : firstMatchingStop sp.stop s.outputText with _ | stopStr
    · refine Or.inr ⟨rfl, ?_⟩
      by_cases h1 : mml < s.getLen
      · exact Or.inl (by unfold checkStop; rw [hm, if_pos h1])
      · by_cases h2 : s.getOutputLen = sp.maxTokens
        · exact Or.inl (by unfold checkStop; rw [hm, if_neg h1, if_pos h2])
        · by_cases h3 : sp.ignoreEos = false ∧ s.getLastTokenId = some eos
          · exact Or.inr (Or.inl
              (by unfold checkStop; rw [hm, if_neg h1, if_neg h2, if_pos h3]))
          · exact Or.inr (Or.inr
              (by unfold checkStop; rw [hm, if_neg h1, if_neg h2, if_neg h3]))
    · exact Or.inl ⟨stopStr, rfl, by unfold checkStop; rw [hm]⟩
  have hframe : (checkStop mml eos sp s).promptTokenIds = s.promptTokenIds ∧
      (checkStop mml eos sp s).outputTokenIds = s.outputTokenIds ∧
      (checkStop mml eos sp s).seqId = s.seqId := by
    rcases hcases with ⟨stopStr, _, hr⟩ | ⟨_, hr | hr | hr⟩ <;> rw [hr] <;>
      exact ⟨rfl, rfl, rfl⟩
  refine ⟨hframe.1, hframe.2.1, hframe.2.2, ?_, ?_⟩
  · intro stopStr hm
    rcases hcases with ⟨stopStr', hm', hr⟩ | ⟨hm', _⟩
    · rw [hm] at hm'
      cases hm'
      rcases firstMatchingStop_some hm with ⟨hmem, hends⟩
      refine ⟨by rw [hr]; rfl, ?_, ?_⟩
      · intro hne
        rw [hr]
        show pySliceDropSuffix s.outputText stopStr.length ++ stopStr = s.outputText
        exact pySliceDropSuffix_append hends hne
      · intro hemp
        subst hemp
        rw [hr]
        rfl
    · rw [hm] at hm'
      cases hm'
  · intro hm
    rcases hcases with ⟨stopStr', hm', hr⟩ | ⟨_, hr | hr | hr⟩
    · rw [hm] at hm'
      cases hm'
    · rw [hr]
      exact ⟨rfl, Or.inr (Or.inr rfl)⟩
    · rw [hr]
      exact ⟨rfl, Or.inr (Or.inl rfl)⟩
    · rw [hr]
      exact ⟨rfl, Or.inl rfl⟩

theorem beamStopDecision_cons (ctx : EngineCtx) (sp : SamplingParams)
    (allF : List FinishedEntry) (br : ChildEntry) (rrest : List ChildEntry)
    (cw : FinishedEntry) (crest : List FinishedEntry)
    (hlen : ¬ allF.length < sp.bestOf) (hdrop : allF.drop (sp.bestOf - 1) = cw :: crest) :
    beamStopDecision ctx sp allF (br :: rrest) =
      checkBeamSearchEarlyStopping ctx sp.earlyStopping sp br.seq cw.entry.seq := by
  unfold beamStopDecision
  rw [if_neg (by simp), if_neg hlen, hdrop]

/-- C5 (confirmed): the beam-search stop decision.  With fewer running
children than none the beam stops; with fewer than `beam_width` finished
sequences it continues; otherwise `_check_beam_search_early_stopping` is
consulted on the best running child and the worst of the top `beam_width`
finished sequences, and it stops iff `early_stopping` is true, or the worst
finished score at its current length is at least the best running
sequence's score — taken at its actual current length when
`early_stopping` is false, and when `early_stopping` is "never" taken at
`max(prompt_len + max_tokens, max_model_len)` if `length_penalty > 0` and
at the actual current length otherwise. -/
theorem c5_beam_early_stopping (ctx : EngineCtx) (sp : SamplingParams)
    (allFinishedSorted : List FinishedEntry) (runningSorted : List ChildEntry)
    (_hbw : 1 ≤ sp.bestOf) :
    (runningSorted = [] → beamStopDecision ctx sp allFinishedSorted runningSorted = true) ∧
    (runningSorted ≠ [] → allFinishedSorted.length < sp.bestOf →
       beamStopDecision ctx sp allFinishedSorted runningSorted = false) ∧
    (∀ br rrest cw crest,
       runningSorted = br :: rrest →
       sp.bestOf ≤ allFinishedSorted.length →
       allFinishedSorted.drop (sp.bestOf - 1) = cw :: crest →
       (beamStopDecision ctx sp allFinishedSorted runningSorted = true ↔
          (sp.earlyStopping = EarlyStopping.eTrue ∨
           (sp.earlyStopping = EarlyStopping.eFalse ∧
              ctx.bscore br.seq none ≤ ctx.bscore cw.entry.seq none) ∨
           (sp.earlyStopping = EarlyStopping.never ∧ 0 < sp.lengthPenalty ∧
              ctx.bscore br.seq
                  (some (max (br.seq.getPromptLen + sp.maxTokens) ctx.maxModelLen)) ≤
                ctx.bscore cw.entry.seq none) ∨
           (sp.earlyStopping = EarlyStopping.never ∧ ¬ 0 < sp.lengthPenalty ∧
              ctx.bscore br.seq none ≤ ctx.bscore cw.entry.seq none)))) := by
  refine ⟨?_, ?_, ?_⟩
  · intro he
    subst he
    rfl
  · intro hne hlen
    unfold beamStopDecision
    rw [if_neg (by cases runningSorted with
          | nil => exact absurd rfl hne
          | cons a l => simp), if_pos hlen]
  · intro br rrest cw crest hrun hge hdrop
    subst hrun
    rw [beamStopDecision_cons ctx sp allFinishedSorted br rrest cw crest
          (not_lt.mpr hge) hdrop]
    unfold checkBeamSearchEarlyStopping
    cases hes : sp.earlyStopping with
    | eTrue => simp [hes]
    | eFalse => simp [hes, decide_eq_true_eq]
    | never =>
        by_cases hlp : 0 < sp.lengthPenalty
        · rw [if_pos hlp]
          simp [hes, hlp, decide_eq_true_eq]
        · rw [if_neg hlp]
          simp [hes, hlp, decide_eq_true_eq]

/-- Witness for `c5_beam_early_stopping` on a two-element finished list and
one running child. -/
theorem c5_beam_early_stopping_witness :
    1 ≤ spBeamFix.bestOf ∧
    (([runEntryFix2] : List ChildEntry) = [] →
       beamStopDecision ctxBeamFix spBeamFix [finEntryFix0, finEntryFix1] [runEntryFix2] = true) ∧
    (([runEntryFix2] : List ChildEntry) ≠ [] →
       ([finEntryFix0, finEntryFix1] : List FinishedEntry).length < spBeamFix.bestOf →
       beamStopDecision ctxBeamFix spBeamFix [finEntryFix0, finEntryFix1] [runEntryFix2] = false) ∧
    (∀ br rrest cw crest,
       ([runEntryFix2] : List ChildEntry) = br :: rrest →
       spBeamFix.bestOf ≤ ([finEntryFix0, finEntryFix1] : List FinishedEntry).length →
       ([finEntryFix0, finEntryFix1] : List FinishedEntry).drop (spBeamFix.bestOf - 1) =
         cw :: crest →
       (beamStopDecision ctxBeamFix spBeamFix [finEntryFix0, finEntryFix1] [runEntryFix2] =
           true ↔
          (spBeamFix.earlyStopping = EarlyStopping.eTrue ∨
           (spBeamFix.earlyStopping = EarlyStopping.eFalse ∧
              ctxBeamFix.bscore br.seq none ≤ ctxBeamFix.bscore cw.entry.seq none) ∨
           (spBeamFix.earlyStopping = EarlyStopping.never ∧ 0 < spBeamFix.lengthPenalty ∧
              ctxBeamFix.bscore br.seq
                  (some (max (br.seq.getPromptLen + spBeamFix.maxTokens)
                    ctxBeamFix.maxModelLen)) ≤
                ctxBeamFix.bscore cw.entry.seq none) ∨
           (spBeamFix.earlyStopping = EarlyStopping.never ∧ ¬ 0 < spBeamFix.lengthPenalty ∧
              ctxBeamFix.bscore br.seq none ≤ ctxBeamFix.bscore cw.entry.seq none)))) :=
  ⟨by decide,
   (c5_beam_early_stopping ctxBeamFix spBeamFix [finEntryFix0, finEntryFix1]
     [runEntryFix2] (by decide)).1,
   (c5_beam_early_stopping ctxBeamFix spBeamFix [finEntryFix0, finEntryFix1]
     [runEntryFix2] (by decide)).2.1,
   (c5_beam_early_stopping ctxBeamFix spBeamFix [finEntryFix0, finEntryFix1]
     [runEntryFix2] (by decide)).2.2⟩

/-- A fold whose step only ever appends events satisfying `P` to the trace
extends the initial trace by events satisfying `P`. -/
theorem foldl_trace_extend {σ α : Type} (P : SchedEvent → Prop) (f : σ → α → σ)
    (tr : σ → List SchedEvent)
    (hf : ∀ s a, ∃ tl, tr (f s a) = tr s ++ tl ∧ ∀ e ∈ tl, P e) :
    ∀ (l : List α) (s : σ), ∃ tl, tr (l.foldl f s) = tr s ++ tl ∧ ∀ e ∈ tl, P e := by
  intro l
  induction l with
  | nil => intro s; exact ⟨[], by simp, by simp⟩
  | cons a as ih =>
      intro s
      rcases hf s a with ⟨tl1, h1, hp1⟩
      rcases ih (f s a) with ⟨tl2, h2, hp2⟩
      refine ⟨tl1 ++ tl2, ?_, ?_⟩
      · simp only [List.foldl_cons, h2, h1, List.append_assoc]
      · intro e he
        rcases List.mem_append.mp he with h | h
        · exact hp1 e h
        · exact hp2 e h

/-- The sample-application loop records exactly one `free` per running
parent that received no child sample, in parent order, and no other
event. -/
theorem applySamples_foldl_trace (promptChunkLen : Nat) (samples : List SequenceOutputs) :
    ∀ (parents : List Sequence) (st : P1State),
      (parents.foldl (processParentSamples promptChunkLen samples) st).trace =
        st.trace ++
          ((parents.filter (fun p => (childSamplesFor samples p.seqId).isEmpty)).map
            (·.seqId)).map SchedEvent.free := by
  intro parents
  induction parents with
  | nil => intro st; simp
  | cons p ps ih =>
      intro st
      simp only [List.foldl_cons]
      rw [ih]
      cases hcs : childSamplesFor samples p.seqId with
      | nil =>
          have hstep : (processParentSamples promptChunkLen samples st p).trace =
              st.trace ++ [SchedEvent.free p.seqId] := by
            unfold processParentSamples
            rw [hcs]
          rw [hstep]
          rw [List.filter_cons_of_pos (by simp [hcs])]
          simp
      | cons c cs =>
          have hstep : (processParentSamples promptChunkLen samples st p).trace =
              st.trace := by
            unfold processParentSamples
            rw [hcs]
          rw [hstep]
          rw [List.filter_cons_of_neg (by simp [hcs])]

theorem isFree_false_of_isFork {e : SchedEvent} (h : e.isFork = true) : e.isFree = false := by
  cases e <;> simp_all [SchedEvent.isFork, SchedEvent.isFree]

/-- Events that are never frees followed by events that are never forks
satisfy the fork-before-free discipline. -/
theorem noForkAfterFree_append {a b : List SchedEvent}
    (ha : ∀ e ∈ a, e.isFree = false) (hb : ∀ e ∈ b, e.isFork = false) :
    noForkAfterFree (a ++ b) = true := by
  induction a with
  | nil =>
      induction b with
      | nil => rfl
      | cons e bs ihb =>
          simp only [List.nil_append] at *
          unfold noForkAfterFree
          rw [Bool.and_eq_true]
          constructor
          · split
            · rw [List.all_eq_true]
              intro x hx
              rw [hb x (List.mem_cons_of_mem e hx)]
              rfl
            · rfl
          · exact ihb (fun x hx => hb x (List.mem_cons_of_mem e hx))
  | cons e as iha =>
      simp only [List.cons_append]
      unfold noForkAfterFree
      rw [Bool.and_eq_true]
      constructor
      · rw [ha e (List.mem_cons_self e as)]
        rfl
      · exact iha (fun x hx => ha x (List.mem_cons_of_mem e hx))

/-- Projection of `nonBeamFinalize` onto the trace (definitional, via
structure eta). -/
theorem nonBeamFinalize_snd (st : P1State) :
    (nonBeamFinalize st).2 =
      st.entries.foldl freeFinishedParentStep
        (st.entries.foldl addForkStep (st.group, st.trace)).2 := rfl

/-- Projection of `nonBeamFinalize` onto the group. -/
theorem nonBeamFinalize_fst (st : P1State) :
    (nonBeamFinalize st).1 = (st.entries.foldl addForkStep (st.group, st.trace)).1 := rfl

/-- Projection of `beamFinalize` onto the trace. -/
theorem beamFinalize_snd (ctx : EngineCtx) (sp : SamplingParams)
    (existingFinished : List Sequence) (st : P1State) :
    (beamFinalize ctx sp existingFinished st).2 =
      ((beamUnselectedEntries ctx sp existingFinished st.entries).foldl removeUnselectedStep
        (((beamSelectedEntries ctx sp existingFinished st.entries).foldl addForkStep
            ((beamRemovedExisting ctx sp existingFinished st.entries).foldl
              (fun g e => g.removeSeq e.entry.seq.seqId) st.group, st.trace)).1,
         (beamSelectedEntries ctx sp existingFinished st.entries).foldl
           freeFinishedParentStep
           (((beamSelectedEntries ctx sp existingFinished st.entries).foldl addForkStep
             ((beamRemovedExisting ctx sp existingFinished st.entries).foldl
               (fun g e => g.removeSeq e.entry.seq.seqId) st.group, st.trace)).2))).2 := rfl

/-- The `addForkStep` fold appends only fork events. -/
theorem addForkStep_fold_trace (entries : List ChildEntry)
    (acc : SequenceGroup × List SchedEvent) :
    ∃ tl, (entries.foldl addForkStep acc).2 = acc.2 ++ tl ∧ ∀ e ∈ tl, e.isFork = true := by
  refine foldl_trace_extend (fun e => e.isFork = true) addForkStep Prod.snd ?_ entries acc
  intro s a
  by_cases hp : a.isParent
  · exact ⟨[], by simp [addForkStep, hp], by simp⟩
  · by_cases hfin : a.seq.isFinished
    · exact ⟨[], by simp [addForkStep, hp, hfin], by simp⟩
    · refine ⟨[SchedEvent.fork a.parentId a.seq.seqId], by simp [addForkStep, hp, hfin], ?_⟩
      intro e he
      rcases List.mem_singleton.mp he with rfl
      rfl

/-- The `freeFinishedParentStep` fold appends only free events. -/
theorem freeFinishedParentStep_fold_trace (entries : List ChildEntry) (tr : List SchedEvent) :
    ∃ tl, entries.foldl freeFinishedParentStep tr = tr ++ tl ∧ ∀ e ∈ tl, e.isFree = true := by
  refine foldl_trace_extend (fun e => e.isFree = true) freeFinishedParentStep id ?_ entries tr
  intro s a
  by_cases hp : a.isParent && a.seq.isFinished
  · refine ⟨[SchedEvent.free a.seq.seqId], by simp [freeFinishedParentStep, hp], ?_⟩
    intro e he
    rcases List.mem_singleton.mp he with rfl
    rfl
  · exact ⟨[], by simp [freeFinishedParentStep, hp], by simp⟩

/-- The `removeUnselectedStep` fold appends only free events. -/
theorem removeUnselectedStep_fold_trace (entries : List ChildEntry)
    (acc : SequenceGroup × List SchedEvent) :
    ∃ tl, (entries.foldl removeUnselectedStep acc).2 = acc.2 ++ tl ∧
      ∀ e ∈ tl, e.isFree = true := by
  refine foldl_trace_extend (fun e => e.isFree = true) removeUnselectedStep Prod.snd ?_
    entries acc
  intro s a
  by_cases hp : a.isParent
  · refine ⟨[SchedEvent.free a.seq.seqId], by simp [removeUnselectedStep, hp], ?_⟩
    intro e he
    rcases List.mem_singleton.mp he with rfl
    rfl
  · exact ⟨[], by simp [removeUnselectedStep, hp], by simp⟩

theorem isFork_false_of_isFree {e : SchedEvent} (h : e.isFree = true) : e.isFork = false := by
  cases e <;> simp_all [SchedEvent.isFork, SchedEvent.isFree]

/-- The non-beam finalization appends only forks-then-frees to the trace. -/
theorem nonBeamFinalize_trace (st : P1State) :
    ∃ tl, (nonBeamFinalize st).2 = st.trace ++ tl ∧ noForkAfterFree tl = true := by
  rcases addForkStep_fold_trace st.entries (st.group, st.trace) with ⟨tl1, h1, hp1⟩
  rcases freeFinishedParentStep_fold_trace st.entries
    (st.entries.foldl addForkStep (st.group, st.trace)).2 with ⟨tl2, h2, hp2⟩
  refine ⟨tl1 ++ tl2, ?_, ?_⟩
  · rw [nonBeamFinalize_snd, h2, h1, List.append_assoc]
  · exact noForkAfterFree_append
      (fun e he => isFree_false_of_isFork (hp1 e he))
      (fun e he => isFork_false_of_isFree (hp2 e he))

/-- The beam finalization appends only forks-then-frees to the trace. -/
theorem beamFinalize_trace (ctx : EngineCtx) (sp : SamplingParams)
    (existingFinished : List Sequence) (st : P1State) :
    ∃ tl, (beamFinalize ctx sp existingFinished st).2 = st.trace ++ tl ∧
      noForkAfterFree tl = true := by
  rcases addForkStep_fold_trace (beamSelectedEntries ctx sp existingFinished st.entries)
    ((beamRemovedExisting ctx sp existingFinished st.entries).foldl
      (fun g e => g.removeSeq e.entry.seq.seqId) st.group, st.trace) with ⟨tl1, h1, hp1⟩
  rcases freeFinishedParentStep_fold_trace
    (beamSelectedEntries ctx sp existingFinished st.entries)
    ((beamSelectedEntries ctx sp existingFinished st.entries).foldl addForkStep
      ((beamRemovedExisting ctx sp existingFinished st.entries).foldl
        (fun g e => g.removeSeq e.entry.seq.seqId) st.group, st.trace)).2
    with ⟨tl2, h2, hp2⟩
  rcases removeUnselectedStep_fold_trace
    (beamUnselectedEntries ctx sp existingFinished st.entries)
    (((beamSelectedEntries ctx sp existingFinished st.entries).foldl addForkStep
        ((beamRemovedExisting ctx sp existingFinished st.entries).foldl
          (fun g e => g.removeSeq e.entry.seq.seqId) st.group, st.trace)).1,
     (beamSelectedEntries ctx sp existingFinished st.entries).foldl freeFinishedParentStep
       (((beamSelectedEntries ctx sp existingFinished st.entries).foldl addForkStep
         ((beamRemovedExisting ctx sp existingFinished st.entries).foldl
           (fun g e => g.removeSeq e.entry.seq.seqId) st.group, st.trace)).2))
    with ⟨tl3, h3, hp3⟩
  refine ⟨tl1 ++ (tl2 ++ tl3), ?_, ?_⟩
  · rw [beamFinalize_snd, h3]
    simp only at h2 ⊢
    rw [h2, h1]
    simp [List.append_assoc]
  · refine noForkAfterFree_append (fun e he => isFree_false_of_isFork (hp1 e he)) ?_
    intro e he
    rcases List.mem_append.mp he with h | h
    · exact isFork_false_of_isFree (hp2 e h)
    · exact isFork_false_of_isFree (hp3 e h)

/-- The trace of `_process_sequence_group_samples` through the two
branches. -/
theorem processSequenceGroupSamples_trace (ctx : EngineCtx) (g : SequenceGroup)
    (promptChunkLen : Nat) (samples : List SequenceOutputs) (counter : Nat) :
    (processSequenceGroupSamples ctx g promptChunkLen samples counter).2.2 =
      (if g.samplingParams.useBeamSearch then
        (beamFinalize ctx g.samplingParams g.finishedSeqs
          (decodePhase ctx g.samplingParams
            (applySamplesPhase g promptChunkLen samples counter))).2
      else
        (nonBeamFinalize
          (decodePhase ctx g.samplingParams
            (applySamplesPhase g promptChunkLen samples counter))).2) := by
  simp only [processSequenceGroupSamples]
  by_cases h : g.samplingParams.useBeamSearch = true <;> simp [h]

/-- C1 counterexample (corrected claim): processing the fixture group —
parent 0 receives no child sample and is freed during sample application,
parent 1 forks a child afterwards — produces the trace `[free 0, fork 1 2]`,
in which a `free_seq` precedes a `fork_seq` of the same step, refuting the
claim that within a step's output processing all fork calls precede all
free calls. -/
theorem c1_counterexample :
    (processSequenceGroupSamples ctxFix groupFix 0 samplesFix 2).2.2 =
      [SchedEvent.free 0, SchedEvent.fork 1 2] ∧
    noForkAfterFree (processSequenceGroupSamples ctxFix groupFix 0 samplesFix 2).2.2 =
      false := by
  refine ⟨by decide, by decide⟩

/-- C1 (amended): within the processing of a single sequence group, the
scheduler-call trace starts with exactly one `free_seq` per running parent
that received no child sample (in parent order, issued while the samples
are applied), and in the remainder of the trace every `fork_seq` precedes
every `free_seq`.  The fork-before-free guarantee therefore holds per group
for all fork/free calls of the fork/free phases, but not for the
zero-child-parent frees (and a step processes its groups sequentially, so
it does not hold across groups either). -/
theorem c1_group_fork_free_order (ctx : EngineCtx) (g : SequenceGroup)
    (promptChunkLen : Nat) (samples : List SequenceOutputs) (counter : Nat) :
    (processSequenceGroupSamples ctx g promptChunkLen samples counter).2.2.take
        (zeroChildSampleParents g samples).length =
      (zeroChildSampleParents g samples).map SchedEvent.free ∧
    noForkAfterFree
      ((processSequenceGroupSamples ctx g promptChunkLen samples counter).2.2.drop
        (zeroChildSampleParents g samples).length) = true := by
  have hst1 : (applySamplesPhase g promptChunkLen samples counter).trace =
      (zeroChildSampleParents g samples).map SchedEvent.free := by
    unfold applySamplesPhase zeroChildSampleParents
    rw [applySamples_foldl_trace]
    simp
  have hst2 : (decodePhase ctx g.samplingParams
      (applySamplesPhase g promptChunkLen samples counter)).trace =
      (zeroChildSampleParents g samples).map SchedEvent.free := by
    rw [← hst1]
    rfl
  have htr : ∃ tl, (processSequenceGroupSamples ctx g promptChunkLen samples counter).2.2 =
      (zeroChildSampleParents g samples).map SchedEvent.free ++ tl ∧
      noForkAfterFree tl = true := by
    rw [processSequenceGroupSamples_trace]
    by_cases h : g.samplingParams.useBeamSearch = true
    · rw [if_pos h]
      rcases beamFinalize_trace ctx g.samplingParams g.finishedSeqs
        (decodePhase ctx g.samplingParams
          (applySamplesPhase g promptChunkLen samples counter)) with ⟨tl, htl, hn⟩
      exact ⟨tl, by rw [htl, hst2], hn⟩
    · rw [if_neg h]
      rcases nonBeamFinalize_trace
        (decodePhase ctx g.samplingParams
          (applySamplesPhase g promptChunkLen samples counter)) with ⟨tl, htl, hn⟩
      exact ⟨tl, by rw [htl, hst2], hn⟩
  rcases htr with ⟨tl, htl, hn⟩
  rw [htl]
  have hlen : (zeroChildSampleParents g samples).length =
      ((zeroChildSampleParents g samples).map SchedEvent.free).length :=
    (List.length_map _ _).symm
  constructor
  · rw [hlen]
    exact List.take_left _ _
  · rw [hlen, List.drop_left]
    exact hn

/-- A fold whose step preserves a state predicate preserves it over the
list. -/
theorem foldl_preserves {σ α : Type} (P : σ → Prop) (f : σ → α → σ)
    (hf : ∀ s a, P s → P (f s a)) :
    ∀ (l : List α) (s : σ), P s → P (l.foldl f s) := by
  intro l
  induction l with
  | nil => intro s hs; exact hs
  | cons a as ih => intro s hs; exact ih (f s a) (hf s a hs)

theorem processParentSamples_requestId (promptChunkLen : Nat)
    (samples : List SequenceOutputs) (st : P1State) (p : Sequence) :
    (processParentSamples promptChunkLen samples st p).group.requestId =
      st.group.requestId := by
  unfold processParentSamples
  cases childSamplesFor samples p.seqId with
  | nil => rfl
  | cons c cs => rfl

/-- `_process_sequence_group_samples` never changes the group's request
id. -/
theorem processSequenceGroupSamples_requestId (ctx : EngineCtx) (g : SequenceGroup)
    (promptChunkLen : Nat) (samples : List SequenceOutputs) (counter : Nat) :
    (processSequenceGroupSamples ctx g promptChunkLen samples counter).1.requestId =
      g.requestId := by
  have h1 : (applySamplesPhase g promptChunkLen samples counter).group.requestId =
      g.requestId := by
    unfold applySamplesPhase
    exact foldl_preserves (fun st : P1State => st.group.requestId = g.requestId) _
      (fun s a hs => by dsimp only; rw [processParentSamples_requestId]; exact hs)
      g.runningSeqs ⟨g, counter, [], []⟩ rfl
  have h2 : (decodePhase ctx g.samplingParams
      (applySamplesPhase g promptChunkLen samples counter)).group.requestId =
      g.requestId := by
    unfold decodePhase
    refine foldl_preserves (fun gr : SequenceGroup => gr.requestId = g.requestId) _
      (fun s a hs => ?_) _ _ h1
    by_cases hp : a.isParent
    · simpa [hp, SequenceGroup.updateSeq] using hs
    · simpa [hp] using hs
  have haf : ∀ (l : List ChildEntry) (acc : SequenceGroup × List SchedEvent),
      acc.1.requestId = g.requestId → (l.foldl addForkStep acc).1.requestId = g.requestId :=
    fun l acc h =>
      foldl_preserves (fun acc : SequenceGroup × List SchedEvent =>
        acc.1.requestId = g.requestId) addForkStep
        (fun s a hs => by
          unfold addForkStep
          by_cases hp : a.isParent
          · simpa [hp] using hs
          · by_cases hf : a.seq.isFinished <;>
              simpa [hp, hf, SequenceGroup.addSeq] using hs) l acc h
  unfold processSequenceGroupSamples
  by_cases hb : g.samplingParams.useBeamSearch = true
  · simp only [hb, if_true]
    have hg1 : ((beamRemovedExisting ctx g.samplingParams g.finishedSeqs
        (decodePhase ctx g.samplingParams
          (applySamplesPhase g promptChunkLen samples counter)).entries).foldl
        (fun gr e => gr.removeSeq e.entry.seq.seqId)
        (decodePhase ctx g.samplingParams
          (applySamplesPhase g promptChunkLen samples counter)).group).requestId =
        g.requestId := by
      refine foldl_preserves (fun gr : SequenceGroup => gr.requestId = g.requestId) _
        (fun s a hs => by simpa [SequenceGroup.removeSeq] using hs) _ _ h2
    show (beamFinalize ctx g.samplingParams g.finishedSeqs
        (decodePhase ctx g.samplingParams
          (applySamplesPhase g promptChunkLen samples counter))).1.requestId = g.requestId
    unfold beamFinalize
    refine foldl_preserves (fun acc : SequenceGroup × List SchedEvent =>
        acc.1.requestId = g.requestId) removeUnselectedStep
      (fun s a hs => by
        unfold removeUnselectedStep
        by_cases hp : a.isParent
        · simpa [hp, SequenceGroup.removeSeq] using hs
        · simpa [hp] using hs) _ _ ?_
    exact haf _ _ hg1
  · simp only [hb, if_false]
    show (nonBeamFinalize (decodePhase ctx g.samplingParams
        (applySamplesPhase g promptChunkLen samples counter))).1.requestId = g.requestId
    rw [nonBeamFinalize_fst]
    exact haf _ _ h2

/-- The processed scheduled groups keep their request ids, in order. -/
theorem processScheduled_requestIds (ctx : EngineCtx) :
    ∀ (triples : List (SequenceGroup × Nat × List SequenceOutputs)) (counter : Nat),
      ((processScheduled ctx triples counter).1).map (·.requestId) =
        triples.map (fun t => t.1.requestId) := by
  intro triples
  induction triples with
  | nil => intro counter; rfl
  | cons t ts ih =>
      intro counter
      rcases t with ⟨g, pcl, samples⟩
      simp only [processScheduled, List.map_cons]
      rw [processSequenceGroupSamples_requestId, ih]

theorem processScheduled_length (ctx : EngineCtx) :
    ∀ (triples : List (SequenceGroup × Nat × List SequenceOutputs)) (counter : Nat),
      ((processScheduled ctx triples counter).1).length = triples.length := by
  intro triples
  induction triples with
  | nil => intro counter; rfl
  | cons t ts ih =>
      intro counter
      rcases t with ⟨g, pcl, samples⟩
      simp only [processScheduled, List.length_cons]
      rw [ih]

/-- `zip3` takes a prefix of its first argument. -/
theorem zip3_map_fst {α β γ : Type} :
    ∀ (as : List α) (bs : List β) (cs : List γ),
      (zip3 as bs cs).map (·.1) = as.take (zip3 as bs cs).length := by
  intro as
  induction as with
  | nil => intro bs cs; cases bs <;> cases cs <;> rfl
  | cons a as ih =>
      intro bs cs
      cases bs with
      | nil => rfl
      | cons b bs =>
          cases cs with
          | nil => rfl
          | cons c cs =>
              simp only [zip3, List.map_cons, List.length_cons, List.take_succ_cons]
              rw [ih]

/-- Projection of `_process_model_outputs` onto the outputs list. -/
theorem processModelOutputs_fst (ctx : EngineCtx) (output : List (List SequenceOutputs))
    (so : SchedulerOutputs) (counter : Nat) :
    (processModelOutputs ctx output so counter).1 =
      (((processScheduled ctx (zip3 so.scheduledSeqGroups so.promptChunkLens output)
            counter).1 ++
        so.scheduledSeqGroups.drop
          (zip3 so.scheduledSeqGroups so.promptChunkLens output).length) ++
        so.ignoredSeqGroups).map RequestOutput.fromSeqGroup := rfl

/-- The request ids of the outputs of `_process_model_outputs`: the
scheduled groups' ids in order, then the ignored groups' ids. -/
theorem processModelOutputs_requestIds (ctx : EngineCtx)
    (output : List (List SequenceOutputs)) (so : SchedulerOutputs) (counter : Nat) :
    ((processModelOutputs ctx output so counter).1).map (·.requestId) =
      so.scheduledSeqGroups.map (·.requestId) ++ so.ignoredSeqGroups.map (·.requestId) := by
  have hcomp : ∀ L : List SequenceGroup,
      L.map ((fun o : RequestOutput => o.requestId) ∘ RequestOutput.fromSeqGroup) =
        L.map (·.requestId) :=
    fun L => List.map_congr_left (fun g _ => rfl)
  have h1 : ((zip3 so.scheduledSeqGroups so.promptChunkLens output).map
      (fun t => t.1.requestId)) =
      (so.scheduledSeqGroups.take
        (zip3 so.scheduledSeqGroups so.promptChunkLens output).length).map (·.requestId) := by
    have h := zip3_map_fst so.scheduledSeqGroups so.promptChunkLens output
    have h2 : ((zip3 so.scheduledSeqGroups so.promptChunkLens output).map (·.1)).map
        (·.requestId) =
        (so.scheduledSeqGroups.take
          (zip3 so.scheduledSeqGroups so.promptChunkLens output).length).map (·.requestId) := by
      rw [h]
    rw [← h2, List.map_map]
    rfl
  rw [processModelOutputs_fst, List.map_map, hcomp, List.map_append, List.map_append]
  rw [processScheduled_requestIds, h1, ← List.map_append, List.take_append_drop]

theorem countP_eq_one_of_nodup {r : String} :
    ∀ {l : List String}, l.Nodup → r ∈ l → l.countP (fun s => decide (s = r)) = 1 := by
  intro l
  induction l with
  | nil => intro _ hm; cases hm
  | cons a as ih =>
      intro hn hm
      rw [List.countP_cons]
      rcases List.mem_cons.mp hm with h | h
      · subst h
        have : as.countP (fun s => decide (s = r)) = 0 := by
          rw [List.countP_eq_zero]
          intro s hs hc
          rw [of_decide_eq_true hc] at hs
          exact (List.nodup_cons.mp hn).1 hs
        simp [this]
      · have hne : ¬ a = r := by
          intro he
          subst he
          exact (List.nodup_cons.mp hn).1 h
        rw [ih (List.nodup_cons.mp hn).2 h]
        simp [hne]

theorem countP_eq_zero_of_not_mem {r : String} {l : List String} (hm : r ∉ l) :
    l.countP (fun s => decide (s = r)) = 0 := by
  rw [List.countP_eq_zero]
  intro s hs hc
  rw [of_decide_eq_true hc] at hs
  exact hm hs

theorem filter_requestId_length (l : List RequestOutput) (r : String) :
    (l.filter (fun o => decide (o.requestId = r))).length =
      (l.map (·.requestId)).countP (fun s => decide (s = r)) := by
  rw [List.countP_map, ← List.countP_eq_length_filter]
  rfl

/-- C4 counterexample (corrected claim): a non-empty plan (one block move)
with one ignored group: the step's output list contains the ignored group's
RequestOutput twice — once from `_process_model_outputs` and once from the
`ignored` list `_schedule` already produced — refuting "exactly one
RequestOutput for every ignored sequence group". -/
theorem c4_counterexample :
    soFix.isEmpty = false ∧
    soFix.ignoredSeqGroups = [groupIgnFix] ∧
    groupIgnFix.requestId = "ri" ∧
    (engineStep ctxFix soFix [([], 7)] 0).map
        (fun r => (r.outputs.filter (fun o => decide (o.requestId = "ri"))).length) =
      some 2 ∧
    (2 : Nat) ≠ 1 := by
  refine ⟨by decide, by decide, by decide, by decide, by decide⟩

/-- C4 (amended): for every step that executes a non-empty plan (with
pairwise distinct request ids across the plan's groups), the returned list
contains exactly one RequestOutput for every scheduled group and exactly
two for every ignored group — the emission loop of
`_process_model_outputs` covers scheduled and ignored groups, and `step`
appends the ignored groups' conversions a second time. -/
theorem c4_request_output_counts (ctx : EngineCtx) (so : SchedulerOutputs)
    (wos : List (List (List SequenceOutputs) × Nat)) (counter : Nat) (res : StepResult)
    (w : List (List SequenceOutputs) × Nat)
    (ws : List (List (List SequenceOutputs) × Nat)) (hw : wos = w :: ws)
    (hne : so.isEmpty = false)
    (hstep : engineStep ctx so wos counter = some res)
    (hnodup : ((so.scheduledSeqGroups ++ so.ignoredSeqGroups).map (·.requestId)).Nodup) :
    (∀ g ∈ so.scheduledSeqGroups,
       (res.outputs.filter (fun o => decide (o.requestId = g.requestId))).length = 1) ∧
    (∀ g ∈ so.ignoredSeqGroups,
       (res.outputs.filter (fun o => decide (o.requestId = g.requestId))).length = 2) := by
  subst hw
  have houts : res.outputs = (processModelOutputs ctx w.1 so counter).1 ++
      so.ignoredSeqGroups.map RequestOutput.fromSeqGroup :=
    (engineStep_some_spec ctx so counter w ws hne res hstep).1
  have hids : res.outputs.map (·.requestId) =
      so.scheduledSeqGroups.map (·.requestId) ++
        (so.ignoredSeqGroups.map (·.requestId) ++ so.ignoredSeqGroups.map (·.requestId)) := by
    rw [houts, List.map_append, processModelOutputs_requestIds, List.map_map]
    rw [show so.ignoredSeqGroups.map
          ((fun o : RequestOutput => o.requestId) ∘ RequestOutput.fromSeqGroup) =
        so.ignoredSeqGroups.map (·.requestId) from
      List.map_congr_left (fun g _ => rfl)]
    rw [List.append_assoc]
  rw [List.map_append] at hnodup
  rcases List.nodup_append.mp hnodup with ⟨hns, hni, hdisj⟩
  constructor
  · intro g hg
    rw [filter_requestId_length, hids, List.countP_append, List.countP_append]
    have h1 : (so.scheduledSeqGroups.map (·.requestId)).countP
        (fun s => decide (s = g.requestId)) = 1 :=
      countP_eq_one_of_nodup hns (List.mem_map_of_mem _ hg)
    have h0 : (so.ignoredSeqGroups.map (·.requestId)).countP
        (fun s => decide (s = g.requestId)) = 0 :=
      countP_eq_zero_of_not_mem (fun hmem => hdisj (List.mem_map_of_mem _ hg) hmem)
    rw [h1, h0]
  · intro g hg
    rw [filter_requestId_length, hids, List.countP_append, List.countP_append]
    have h1 : (so.ignoredSeqGroups.map (·.requestId)).countP
        (fun s => decide (s = g.requestId)) = 1 :=
      countP_eq_one_of_nodup hni (List.mem_map_of_mem _ hg)
    have h0 : (so.scheduledSeqGroups.map (·.requestId)).countP
        (fun s => decide (s = g.requestId)) = 0 :=
      countP_eq_zero_of_not_mem
        (fun hmem => hdisj hmem (List.mem_map_of_mem _ hg))
    rw [h1, h0]

/-- Witness for `c4_request_output_counts`: one scheduled and one ignored
group, one worker. -/
theorem c4_request_output_counts_witness :
    ([(([[(⟨5, 9⟩ : SequenceOutputs)]] : List (List SequenceOutputs)), 7)]) =
      ((([[(⟨5, 9⟩ : SequenceOutputs)]] : List (List SequenceOutputs)), 7)) :: [] ∧
    soStepFix.isEmpty = false ∧
    engineStep ctxFix soStepFix [([[⟨5, 9⟩]], 7)] 0 =
      some ⟨[⟨"rs", [(5, "", SequenceStatus.running)], false⟩,
             RequestOutput.fromSeqGroup groupIgnFix,
             RequestOutput.fromSeqGroup groupIgnFix], 0,
            [SchedEvent.freeFinishedGroups], true, 7⟩ ∧
    ((soStepFix.scheduledSeqGroups ++ soStepFix.ignoredSeqGroups).map (·.requestId)).Nodup ∧
    ((∀ g ∈ soStepFix.scheduledSeqGroups,
        ((⟨[⟨"rs", [(5, "", SequenceStatus.running)], false⟩,
            RequestOutput.fromSeqGroup groupIgnFix,
            RequestOutput.fromSeqGroup groupIgnFix], 0,
           [SchedEvent.freeFinishedGroups], true, 7⟩ : StepResult).outputs.filter
          (fun o => decide (o.requestId = g.requestId))).length = 1) ∧
     (∀ g ∈ soStepFix.ignoredSeqGroups,
        ((⟨[⟨"rs", [(5, "", SequenceStatus.running)], false⟩,
            RequestOutput.fromSeqGroup groupIgnFix,
            RequestOutput.fromSeqGroup groupIgnFix], 0,
           [SchedEvent.freeFinishedGroups], true, 7⟩ : StepResult).outputs.filter
          (fun o => decide (o.requestId = g.requestId))).length = 2)) :=
  ⟨rfl, by decide, by decide, by decide,
   c4_request_output_counts ctxFix soStepFix [([[⟨5, 9⟩]], 7)] 0
     ⟨[⟨"rs", [(5, "", SequenceStatus.running)], false⟩,
       RequestOutput.fromSeqGroup groupIgnFix,
       RequestOutput.fromSeqGroup groupIgnFix], 0,
      [SchedEvent.freeFinishedGroups], true, 7⟩
     ([[⟨5, 9⟩]], 7) [] rfl (by decide) (by decide) (by decide)⟩

/-! Stable-sort lemmas for the Python `list.sort` embedding. -/

theorem pyInsert_perm (le : α → α → Bool) (a : α) :
    ∀ l : List α, (pyInsert le a l).Perm (a :: l) := by
  intro l
  induction l with
  | nil => exact List.Perm.refl _
  | cons b bs ih =>
      unfold pyInsert
      by_cases h : le a b = true
      · rw [if_pos h]
      · rw [if_neg h]
        exact (List.Perm.cons b ih).trans (List.Perm.swap a b bs)

theorem pySort_perm (le : α → α → Bool) : ∀ l : List α, (pySort le l).Perm l := by
  intro l
  induction l with
  | nil => exact List.Perm.refl _
  | cons a as ih =>
      unfold pySort
      exact (pyInsert_perm le a (pySort le as)).trans (List.Perm.cons a ih)

theorem pyInsert_pairwise {α : Type} {k : α → Rat} {a : α} {l : List α}
    (hl : l.Pairwise (fun x y => k y ≤ k x)) :
    (pyInsert (fun x y => decide (k y ≤ k x)) a l).Pairwise (fun x y => k y ≤ k x) := by
  induction l with
  | nil => exact List.pairwise_singleton _ a
  | cons b bs ih =>
      unfold pyInsert
      by_cases h : decide (k b ≤ k a) = true
      · rw [if_pos h]
        refine List.Pairwise.cons ?_ hl
        intro x hx
        rcases List.mem_cons.mp hx with rfl | hx
        · exact of_decide_eq_true h
        · exact le_trans ((List.pairwise_cons.mp hl).1 x hx) (of_decide_eq_true h)
      · rw [if_neg h]
        rcases List.pairwise_cons.mp hl with ⟨hb, hbs⟩
        refine List.pairwise_cons.mpr ⟨?_, ih hbs⟩
        intro x hx
        have hx' := (pyInsert_perm (fun x y => decide (k y ≤ k x)) a bs).mem_iff.mp hx
        rcases List.mem_cons.mp hx' with rfl | hx'
        · exact le_of_lt (lt_of_not_le (by simpa using h))
        · exact hb x hx'

theorem pySortDesc_pairwise {α : Type} (k : α → Rat) :
    ∀ l : List α, (pySortDesc k l).Pairwise (fun x y => k y ≤ k x) := by
  intro l
  induction l with
  | nil => exact List.Pairwise.nil
  | cons a as ih => exact pyInsert_pairwise ih

/-- Stability, expressed per key class: inserting `a` leaves the filtered
key-`q` sublist either untouched or with `a` prepended. -/
theorem pyInsert_filter_key {α : Type} (k : α → Rat) (q : Rat) (a : α) :
    ∀ l : List α,
      (pyInsert (fun x y => decide (k y ≤ k x)) a l).filter (fun e => decide (k e = q)) =
        (if k a = q then [a] else []) ++ l.filter (fun e => decide (k e = q)) := by
  intro l
  induction l with
  | nil =>
      by_cases ha : k a = q <;> simp [pyInsert, ha]
  | cons b bs ih =>
      unfold pyInsert
      by_cases h : decide (k b ≤ k a) = true
      · rw [if_pos h]
        by_cases ha : k a = q <;> by_cases hb : k b = q <;>
          simp [List.filter_cons, ha, hb]
      · rw [if_neg h]
        have hab : ¬ k b ≤ k a := by simpa using h
        have hfil : (b :: pyInsert (fun x y => decide (k y ≤ k x)) a bs).filter
            (fun e => decide (k e = q)) =
            (if k b = q then [b] else []) ++
              (pyInsert (fun x y => decide (k y ≤ k x)) a bs).filter
                (fun e => decide (k e = q)) := by
          by_cases hb : k b = q <;> simp [List.filter_cons, hb]
        rw [hfil, ih]
        by_cases ha : k a = q
        · have hb : ¬ k b = q := fun hbq => hab (le_of_eq (hbq.trans ha.symm))
          simp [ha, hb]
        · by_cases hb : k b = q <;> simp [List.filter_cons, ha, hb]

/-- Stability of the embedded Python sort: for every key value `q`, the
sorted list restricted to key `q` equals the input restricted to key `q`
(so ties keep their input order). -/
theorem pySortDesc_filter_key {α : Type} (k : α → Rat) (q : Rat) :
    ∀ l : List α,
      (pySortDesc k l).filter (fun e => decide (k e = q)) =
        l.filter (fun e => decide (k e = q)) := by
  intro l
  induction l with
  | nil => rfl
  | cons a as ih =>
      show (pyInsert (fun x y => decide (k y ≤ k x)) a
          (pySort (fun x y => decide (k y ≤ k x)) as)).filter
          (fun e => decide (k e = q)) = _
      rw [pyInsert_filter_key]
      rw [show pySort (fun x y => decide (k y ≤ k x)) as = pySortDesc k as from rfl, ih]
      by_cases ha : k a = q <;> simp [List.filter_cons, ha]

theorem pySortDesc_perm {α : Type} (k : α → Rat) (l : List α) :
    (pySortDesc k l).Perm l :=
  pySort_perm _ l

/-! Membership of sequence ids through the group operations and the
finalization folds. -/

theorem removeSeq_mem (g : SequenceGroup) (j i : Nat) :
    i ∈ (g.removeSeq j).seqIds ↔ i ∈ g.seqIds ∧ i ≠ j := by
  unfold SequenceGroup.removeSeq SequenceGroup.seqIds
  simp only [List.mem_map, List.mem_filter]
  constructor
  · rintro ⟨s, ⟨hs, hid⟩, rfl⟩
    refine ⟨⟨s, hs, rfl⟩, ?_⟩
    simpa using hid
  · rintro ⟨⟨s, hs, rfl⟩, hne⟩
    exact ⟨s, ⟨hs, by simpa using hne⟩, rfl⟩

theorem addSeq_seqIds (g : SequenceGroup) (s : Sequence) :
    (g.addSeq s).seqIds = g.seqIds ++ [s.seqId] := by
  unfold SequenceGroup.addSeq SequenceGroup.seqIds
  simp

theorem updateSeq_seqIds (g : SequenceGroup) (s : Sequence) :
    (g.updateSeq s).seqIds = g.seqIds := by
  unfold SequenceGroup.updateSeq SequenceGroup.seqIds
  rw [List.map_map]
  refine List.map_congr_left ?_
  intro t _
  by_cases h : t.seqId = s.seqId
  · simp [h]
  · simp [h]

theorem foldl_removeExisting_mem (L : List FinishedEntry) :
    ∀ (g0 : SequenceGroup) (i : Nat),
      (i ∈ (L.foldl (fun g e => g.removeSeq e.entry.seq.seqId) g0).seqIds ↔
        i ∈ g0.seqIds ∧ i ∉ L.map (fun e => e.entry.seq.seqId)) := by
  induction L with
  | nil => intro g0 i; simp
  | cons e L ih =>
      intro g0 i
      simp only [List.foldl_cons]
      rw [ih, removeSeq_mem]
      simp only [List.map_cons, List.mem_cons]
      constructor
      · rintro ⟨⟨hg, hne⟩, hnm⟩
        exact ⟨hg, fun h => h.elim hne hnm⟩
      · rintro ⟨hg, hn⟩
        exact ⟨⟨hg, fun h => hn (Or.inl h)⟩, fun h => hn (Or.inr h)⟩

theorem foldl_addForkStep_seqIds (L : List ChildEntry) :
    ∀ (acc : SequenceGroup × List SchedEvent),
      (L.foldl addForkStep acc).1.seqIds =
        acc.1.seqIds ++ (L.filter (fun e => !e.isParent)).map (·.seq.seqId) := by
  induction L with
  | nil => intro acc; simp
  | cons e L ih =>
      intro acc
      simp only [List.foldl_cons]
      by_cases hp : e.isParent
      · have hstep : addForkStep acc e = acc := by simp [addForkStep, hp]
        rw [hstep, ih, List.filter_cons_of_neg (by simp [hp])]
      · have hstep : (addForkStep acc e).1 = acc.1.addSeq e.seq := by
          unfold addForkStep
          rw [if_neg (by simp [hp])]
        have hfst : (L.foldl addForkStep (addForkStep acc e)).1.seqIds =
            (addForkStep acc e).1.seqIds ++
              (L.filter (fun e => !e.isParent)).map (·.seq.seqId) := ih _
        rw [hfst, hstep, addSeq_seqIds, List.filter_cons_of_pos (by simp [hp])]
        simp

theorem foldl_removeUnselected_mem (L : List ChildEntry) :
    ∀ (acc : SequenceGroup × List SchedEvent) (i : Nat),
      (i ∈ (L.foldl removeUnselectedStep acc).1.seqIds ↔
        i ∈ acc.1.seqIds ∧ i ∉ (L.filter (·.isParent)).map (·.seq.seqId)) := by
  induction L with
  | nil => intro acc i; simp
  | cons e L ih =>
      intro acc i
      simp only [List.foldl_cons]
      by_cases hp : e.isParent
      · have hstep : (removeUnselectedStep acc e).1 = acc.1.removeSeq e.seq.seqId := by
          unfold removeUnselectedStep
          rw [if_pos hp]
        rw [List.filter_cons_of_pos (by simp [hp]), List.map_cons]
        have := ih (removeUnselectedStep acc e) i
        rw [this, hstep, removeSeq_mem]
        simp only [List.mem_cons]
        constructor
        · rintro ⟨⟨hg, hne⟩, hnm⟩
          exact ⟨hg, fun h => h.elim hne hnm⟩
        · rintro ⟨hg, hn⟩
          exact ⟨⟨hg, fun h => hn (Or.inl h)⟩, fun h => hn (Or.inr h)⟩
      · have hstep : removeUnselectedStep acc e = acc := by
          simp [removeUnselectedStep, hp]
        rw [hstep, ih, List.filter_cons_of_neg (by simp [hp])]

theorem appendTokenId_seqId (s : Sequence) (token promptChunkLen : Nat) :
    (s.appendTokenId token promptChunkLen).seqId = s.seqId := by
  unfold Sequence.appendTokenId
  by_cases h1 : s.promptProcessingFinished
  · rw [if_pos h1]
  · rw [if_neg h1]
    by_cases h2 : s.promptTokenIds.length ≤ s.promptTokensProcessed + promptChunkLen
    · rw [if_pos h2]
    · rw [if_neg h2]

/-- `forkChildren` hands out the counter ids in order and marks every entry
as a fresh (non-parent) child. -/
theorem forkChildren_spec (parent : Sequence) (promptChunkLen : Nat) :
    ∀ (cs : List SequenceOutputs) (c0 : Nat),
      (forkChildren parent promptChunkLen cs c0).1 = c0 + cs.length ∧
      ((forkChildren parent promptChunkLen cs c0).2.map (·.seq.seqId) =
        List.range' c0 cs.length) ∧
      (∀ e ∈ (forkChildren parent promptChunkLen cs c0).2, e.isParent = false) := by
  intro cs
  induction cs with
  | nil =>
      intro c0
      exact ⟨rfl, rfl, by intro e he; cases he⟩
  | cons c cs ih =>
      intro c0
      rcases ih (c0 + 1) with ⟨hcnt, hids, hpar⟩
      refine ⟨?_, ?_, ?_⟩
      · show (forkChildren parent promptChunkLen cs (c0 + 1)).1 = c0 + (cs.length + 1)
        rw [hcnt]
        omega
      · show ((parent.fork c0).appendTokenId c.outputToken promptChunkLen).seqId ::
            (forkChildren parent promptChunkLen cs (c0 + 1)).2.map (·.seq.seqId) =
          List.range' c0 (cs.length + 1)
        rw [appendTokenId_seqId, hids]
        rfl
      · intro e he
        rcases List.mem_cons.mp he with rfl | he
        · rfl
        · exact hpar e he

/-- Group membership through the sample-application loop: exactly the
zero-child-sample parents leave the group. -/
theorem applySamples_foldl_group_mem (promptChunkLen : Nat)
    (samples : List SequenceOutputs) :
    ∀ (ps : List Sequence) (st : P1State) (i : Nat),
      (i ∈ (ps.foldl (processParentSamples promptChunkLen samples) st).group.seqIds ↔
        (i ∈ st.group.seqIds ∧
          i ∉ (ps.filter (fun p => (childSamplesFor samples p.seqId).isEmpty)).map
            (·.seqId))) := by
  intro ps
  induction ps with
  | nil => intro st i; simp
  | cons p ps ih =>
      intro st i
      simp only [List.foldl_cons]
      rw [ih]
      cases hcs : childSamplesFor samples p.seqId with
      | nil =>
          have hgrp : (processParentSamples promptChunkLen samples st p).group =
              st.group.removeSeq p.seqId := by
            unfold processParentSamples
            rw [hcs]
          rw [hgrp, removeSeq_mem, List.filter_cons_of_pos (by simp [hcs])]
          simp only [List.map_cons, List.mem_cons]
          constructor
          · rintro ⟨⟨hg, hne⟩, hnm⟩
            exact ⟨hg, fun h => h.elim hne hnm⟩
          · rintro ⟨hg, hn⟩
            exact ⟨⟨hg, fun h => hn (Or.inl h)⟩, fun h => hn (Or.inr h)⟩
      | cons c cs =>
          have hgrp : (processParentSamples promptChunkLen samples st p).group.seqIds =
              st.group.seqIds := by
            unfold processParentSamples
            rw [hcs]
            show (st.group.updateSeq
              (p.appendTokenId ((c :: cs).getLast (by simp)).outputToken
                promptChunkLen)).seqIds = st.group.seqIds
            exact updateSeq_seqIds _ _
          rw [hgrp, List.filter_cons_of_neg (by simp [hcs])]

theorem processParentSamples_nil_proj (promptChunkLen : Nat)
    (samples : List SequenceOutputs) (st : P1State) (p : Sequence)
    (hcs : childSamplesFor samples p.seqId = []) :
    (processParentSamples promptChunkLen samples st p).counter = st.counter ∧
    (processParentSamples promptChunkLen samples st p).entries = st.entries := by
  unfold processParentSamples
  rw [hcs]
  exact ⟨rfl, rfl⟩

theorem processParentSamples_cons_proj (promptChunkLen : Nat)
    (samples : List SequenceOutputs) (st : P1State) (p : Sequence)
    (c : SequenceOutputs) (cs : List SequenceOutputs)
    (hcs : childSamplesFor samples p.seqId = c :: cs) :
    (processParentSamples promptChunkLen samples st p).counter =
      st.counter + (c :: cs).dropLast.length ∧
    (processParentSamples promptChunkLen samples st p).entries =
      st.entries ++ (forkChildren p promptChunkLen (c :: cs).dropLast st.counter).2 ++
        [⟨p.appendTokenId ((c :: cs).getLast (by simp)).outputToken promptChunkLen,
          p.seqId, true⟩] := by
  constructor
  · unfold processParentSamples
    rw [hcs]
    exact (forkChildren_spec p promptChunkLen (c :: cs).dropLast st.counter).1
  · unfold processParentSamples
    rw [hcs]

/-- The invariant carried through the sample-application loop: every entry
is either a reused parent (an old running sequence id that did receive
samples) or a fresh fork (an id handed out by the counter), and the entry
ids are pairwise distinct. -/
theorem applySamples_foldl_entries_spec (promptChunkLen : Nat)
    (samples : List SequenceOutputs) (counter0 : Nat) (R : List Nat) :
    ∀ (todo : List Sequence) (st : P1State),
      (todo.map (·.seqId)).Nodup →
      (∀ p ∈ todo, p.seqId ∈ R ∧ p.seqId < counter0) →
      counter0 ≤ st.counter →
      (∀ e ∈ st.entries, e.isParent = true → e.seq.seqId ∉ todo.map (·.seqId)) →
      (∀ e ∈ st.entries,
        (e.isParent = true ∧ e.seq.seqId ∈ R ∧
          childSamplesFor samples e.seq.seqId ≠ [] ∧ e.seq.seqId < counter0) ∨
        (e.isParent = false ∧ counter0 ≤ e.seq.seqId ∧ e.seq.seqId < st.counter)) →
      (st.entries.map (·.seq.seqId)).Nodup →
      (st.counter ≤ (todo.foldl (processParentSamples promptChunkLen samples) st).counter ∧
       (∀ e ∈ (todo.foldl (processParentSamples promptChunkLen samples) st).entries,
         (e.isParent = true ∧ e.seq.seqId ∈ R ∧
           childSamplesFor samples e.seq.seqId ≠ [] ∧ e.seq.seqId < counter0) ∨
         (e.isParent = false ∧ counter0 ≤ e.seq.seqId ∧
           e.seq.seqId <
             (todo.foldl (processParentSamples promptChunkLen samples) st).counter)) ∧
       ((todo.foldl (processParentSamples promptChunkLen samples) st).entries.map
         (·.seq.seqId)).Nodup) := by
  intro todo
  induction todo with
  | nil =>
      intro st _ _ _ _ hent hnd
      exact ⟨le_refl _, hent, hnd⟩
  | cons p todo ih =>
      intro st hnodup htodo hcnt hdisj hent hnd
      simp only [List.foldl_cons]
      have hpR := (htodo p (List.mem_cons_self p todo)).1
      have hplt := (htodo p (List.mem_cons_self p todo)).2
      have hnodup' : (todo.map (·.seqId)).Nodup := (List.nodup_cons.mp (by simpa using hnodup)).2
      have hpnotin : p.seqId ∉ todo.map (·.seqId) :=
        (List.nodup_cons.mp (by simpa using hnodup)).1
      have htodo' : ∀ q ∈ todo, q.seqId ∈ R ∧ q.seqId < counter0 :=
        fun q hq => htodo q (List.mem_cons_of_mem p hq)
      cases hcs : childSamplesFor samples p.seqId with
      | nil =>
          rcases processParentSamples_nil_proj promptChunkLen samples st p hcs with
            ⟨hc, he⟩
          have := ih (processParentSamples promptChunkLen samples st p)
            hnodup' htodo' (by rw [hc]; exact hcnt)
            (by rw [he]
                intro e he' hp
                exact fun hmem =>
                  hdisj e he' hp (List.mem_cons_of_mem _ hmem))
            (by rw [he, hc]; exact hent)
            (by rw [he]; exact hnd)
          rw [hc] at this
          exact this
      | cons c cs =>
          rcases processParentSamples_cons_proj promptChunkLen samples st p c cs hcs with
            ⟨hc, he⟩
          rcases forkChildren_spec p promptChunkLen (c :: cs).dropLast st.counter with
            ⟨_, hfids, hfpar⟩
          set len := (c :: cs).dropLast.length with hlen
          set pc : ChildEntry :=
            ⟨p.appendTokenId ((c :: cs).getLast (by simp)).outputToken promptChunkLen,
              p.seqId, true⟩ with hpc
          have hpcid : pc.seq.seqId = p.seqId := appendTokenId_seqId p _ _
          have hforkmem : ∀ e ∈ (forkChildren p promptChunkLen (c :: cs).dropLast
              st.counter).2, st.counter ≤ e.seq.seqId ∧ e.seq.seqId < st.counter + len := by
            intro e he'
            have : e.seq.seqId ∈ List.range' st.counter len := by
              rw [← hfids]
              exact List.mem_map_of_mem _ he'
            exact List.mem_range'_1.mp this
          have hcnt' : (processParentSamples promptChunkLen samples st p).counter =
              st.counter + len := hc
          have hentnew : ∀ e ∈ (processParentSamples promptChunkLen samples st p).entries,
              (e.isParent = true ∧ e.seq.seqId ∈ R ∧
                childSamplesFor samples e.seq.seqId ≠ [] ∧ e.seq.seqId < counter0) ∨
              (e.isParent = false ∧ counter0 ≤ e.seq.seqId ∧
                e.seq.seqId < (processParentSamples promptChunkLen samples st p).counter) := by
            rw [he, hcnt']
            intro e he'
            rcases List.mem_append.mp he' with he'' | he''
            · rcases List.mem_append.mp he'' with h3 | h3
              · rcases hent e h3 with h | ⟨h1, h2, h4⟩
                · exact Or.inl h
                · exact Or.inr ⟨h1, h2, by omega⟩
              · rcases hforkmem e h3 with ⟨h1, h2⟩
                exact Or.inr ⟨hfpar e h3, by omega, by omega⟩
            · rcases List.mem_singleton.mp he'' with rfl
              refine Or.inl ⟨rfl, ?_, ?_, ?_⟩
              · rw [hpcid]; exact hpR
              · rw [hpcid, hcs]; exact fun h => List.noConfusion h
              · rw [hpcid]; exact hplt
          have holdlt : ∀ e ∈ st.entries, e.seq.seqId < st.counter := by
            intro e he'
            rcases hent e he' with ⟨_, _, _, h⟩ | ⟨_, _, h⟩
            · omega
            · exact h
          have hnd' : ((processParentSamples promptChunkLen samples st p).entries.map
              (·.seq.seqId)).Nodup := by
            rw [he, List.map_append, List.map_append, List.nodup_append]
            refine ⟨?_, ?_, ?_⟩
            · rw [List.nodup_append]
              refine ⟨hnd, by rw [hfids]; exact List.nodup_range' _ _, ?_⟩
              intro i hi hi'
              rcases List.mem_map.mp hi with ⟨e, he', rfl⟩
              have h1 : e.seq.seqId < st.counter := holdlt e he'
              rw [hfids] at hi'
              have h2 := (List.mem_range'_1.mp hi').1
              omega
            · simp
            · intro i hi hi'
              have hieq : i = p.seqId := by
                have : i = pc.seq.seqId := by simpa using hi'
                rw [this, hpcid]
              rcases List.mem_append.mp hi with h | h
              · rcases List.mem_map.mp h with ⟨e, he', hei⟩
                rcases hent e he' with ⟨hp, _, _, _⟩ | ⟨_, hge, _⟩
                · refine absurd ?_ (hdisj e he' hp)
                  rw [hei, hieq]
                  exact List.mem_map_of_mem _ (List.mem_cons_self p todo)
                · have : e.seq.seqId = p.seqId := by rw [hei, hieq]
                  omega
              · rw [hfids] at h
                have h2 := (List.mem_range'_1.mp h).1
                omega
          exact (by
            have := ih (processParentSamples promptChunkLen samples st p)
              hnodup' htodo' (by rw [hcnt']; omega)
              (by
                rw [he]
                intro e he' hp
                rcases List.mem_append.mp he' with he'' | he''
                · rcases List.mem_append.mp he'' with h3 | h3
                  · exact fun hmem => hdisj e h3 hp (List.mem_cons_of_mem _ hmem)
                  · rw [hfpar e h3] at hp
                    exact absurd hp (by simp)
                · rcases List.mem_singleton.mp he'' with rfl
                  rw [hpcid]
                  exact hpnotin)
              hentnew hnd'
            rcases this with ⟨h1, h2, h3⟩
            exact ⟨by rw [hcnt'] at h1; omega, h2, h3⟩)

/-- The sample-application phase, from a fresh counter: every entry is a
reused running parent with samples or a fresh fork, with distinct ids. -/
theorem applySamplesPhase_spec (g : SequenceGroup) (promptChunkLen : Nat)
    (samples : List SequenceOutputs) (counter : Nat)
    (hnodup : g.seqIds.Nodup) (hfresh : ∀ i ∈ g.seqIds, i < counter) :
    (∀ e ∈ (applySamplesPhase g promptChunkLen samples counter).entries,
      (e.isParent = true ∧ e.seq.seqId ∈ g.runningSeqs.map (·.seqId) ∧
        childSamplesFor samples e.seq.seqId ≠ [] ∧ e.seq.seqId < counter) ∨
      (e.isParent = false ∧ counter ≤ e.seq.seqId)) ∧
    ((applySamplesPhase g promptChunkLen samples counter).entries.map
      (·.seq.seqId)).Nodup := by
  have hrun_sub : ∀ p, p ∈ g.runningSeqs → p ∈ g.seqs :=
    fun p hp => (List.mem_filter.mp hp).1
  have hrun_nodup : (g.runningSeqs.map (·.seqId)).Nodup :=
    List.Nodup.sublist (List.Sublist.map _ (List.filter_sublist g.seqs)) hnodup
  have hrun_props : ∀ p ∈ g.runningSeqs,
      p.seqId ∈ g.runningSeqs.map (·.seqId) ∧ p.seqId < counter := by
    intro p hp
    exact ⟨List.mem_map_of_mem _ hp,
      hfresh p.seqId (List.mem_map_of_mem _ (hrun_sub p hp))⟩
  have := applySamples_foldl_entries_spec promptChunkLen samples counter
    (g.runningSeqs.map (·.seqId)) g.runningSeqs ⟨g, counter, [], []⟩
    hrun_nodup hrun_props (le_refl counter)
    (by intro e he; cases he)
    (by intro e he; cases he)
    List.Pairwise.nil
  rcases this with ⟨_, h2, h3⟩
  refine ⟨?_, h3⟩
  intro e he
  rcases h2 e he with h | ⟨hp, hge, _⟩
  · exact Or.inl h
  · exact Or.inr ⟨hp, hge⟩

/-- Group ids after the sample-application phase: the original ids minus the
zero-child-sample parents. -/
theorem applySamplesPhase_group_mem (g : SequenceGroup) (promptChunkLen : Nat)
    (samples : List SequenceOutputs) (counter : Nat) (i : Nat) :
    i ∈ (applySamplesPhase g promptChunkLen samples counter).group.seqIds ↔
      (i ∈ g.seqIds ∧ i ∉ zeroChildSampleParents g samples) := by
  unfold applySamplesPhase zeroChildSampleParents
  exact applySamples_foldl_group_mem promptChunkLen samples g.runningSeqs
    ⟨g, counter, [], []⟩ i

theorem checkStop_seqId (mml eos : Nat) (sp : SamplingParams) (s : Sequence) :
    (checkStop mml eos sp s).seqId = s.seqId := by
  unfold checkStop
  cases hm : firstMatchingStop sp.stop s.outputText with
  | some str => rfl
  | none =>
      dsimp only
      split
      · rfl
      · split
        · rfl
        · split
          · rfl
          · rfl

theorem decodeAndCheckStop_seqId (ctx : EngineCtx) (sp : SamplingParams) (s : Sequence) :
    (decodeAndCheckStop ctx sp s).seqId = s.seqId := by
  unfold decodeAndCheckStop
  by_cases h : s.isPromptProcessingFinished
  · rw [if_pos h]
    exact checkStop_seqId _ _ _ _
  · rw [if_neg h]

theorem decodePhase_counter (ctx : EngineCtx) (sp : SamplingParams) (st : P1State) :
    (decodePhase ctx sp st).counter = st.counter := rfl

theorem decodePhase_group_seqIds (ctx : EngineCtx) (sp : SamplingParams) (st : P1State) :
    (decodePhase ctx sp st).group.seqIds = st.group.seqIds := by
  show ((decodePhase ctx sp st).entries.foldl
      (fun g e => if e.isParent then g.updateSeq e.seq else g) st.group).seqIds =
    st.group.seqIds
  refine foldl_preserves (fun gr : SequenceGroup => gr.seqIds = st.group.seqIds) _
    (fun s a hs => ?_) _ _ rfl
  dsimp only
  by_cases hp : a.isParent
  · rw [if_pos hp, updateSeq_seqIds]
    exact hs
  · rw [if_neg hp]
    exact hs

theorem decodePhase_entry_mem (ctx : EngineCtx) (sp : SamplingParams) (st : P1State) :
    ∀ e ∈ (decodePhase ctx sp st).entries, ∃ e1 ∈ st.entries,
      e.seq.seqId = e1.seq.seqId ∧ e.isParent = e1.isParent := by
  intro e he
  have : e ∈ st.entries.map (fun e1 => { e1 with seq := decodeAndCheckStop ctx sp e1.seq }) :=
    he
  rcases List.mem_map.mp this with ⟨e1, he1, rfl⟩
  exact ⟨e1, he1, decodeAndCheckStop_seqId ctx sp e1.seq, rfl⟩

theorem decodePhase_entries_ids (ctx : EngineCtx) (sp : SamplingParams) (st : P1State) :
    (decodePhase ctx sp st).entries.map (·.seq.seqId) = st.entries.map (·.seq.seqId) := by
  show (st.entries.map (fun e1 => { e1 with seq := decodeAndCheckStop ctx sp e1.seq })).map
      (·.seq.seqId) = st.entries.map (·.seq.seqId)
  rw [List.map_map]
  refine List.map_congr_left ?_
  intro e _
  exact decodeAndCheckStop_seqId ctx sp e.seq

/-- Projection of `beamFinalize` onto the group. -/
theorem beamFinalize_fst (ctx : EngineCtx) (sp : SamplingParams)
    (existingFinished : List Sequence) (st : P1State) :
    (beamFinalize ctx sp existingFinished st).1 =
      ((beamUnselectedEntries ctx sp existingFinished st.entries).foldl
        removeUnselectedStep
        (((beamSelectedEntries ctx sp existingFinished st.entries).foldl addForkStep
            ((beamRemovedExisting ctx sp existingFinished st.entries).foldl
              (fun g e => g.removeSeq e.entry.seq.seqId) st.group, st.trace)).1,
         (beamSelectedEntries ctx sp existingFinished st.entries).foldl
           freeFinishedParentStep
           (((beamSelectedEntries ctx sp existingFinished st.entries).foldl addForkStep
             ((beamRemovedExisting ctx sp existingFinished st.entries).foldl
               (fun g e => g.removeSeq e.entry.seq.seqId) st.group, st.trace)).2))).1 := rfl

/-- On the beam branch, the processed group is the beam finalization of the
decoded phase-1 state. -/
theorem processSequenceGroupSamples_fst_beam (ctx : EngineCtx) (g : SequenceGroup)
    (promptChunkLen : Nat) (samples : List SequenceOutputs) (counter : Nat)
    (hbeam : g.samplingParams.useBeamSearch = true) :
    (processSequenceGroupSamples ctx g promptChunkLen samples counter).1 =
      (beamFinalize ctx g.samplingParams g.finishedSeqs
        (decodePhase ctx g.samplingParams
          (applySamplesPhase g promptChunkLen samples counter))).1 := by
  simp only [processSequenceGroupSamples]
  simp [hbeam]

/-- Membership in the final group of the beam finalization. -/
theorem beamFinalize_mem (ctx : EngineCtx) (sp : SamplingParams)
    (existingFinished : List Sequence) (st : P1State) (i : Nat) :
    i ∈ (beamFinalize ctx sp existingFinished st).1.seqIds ↔
      (((i ∈ st.group.seqIds ∧
          i ∉ (beamRemovedExisting ctx sp existingFinished st.entries).map
            (fun e => e.entry.seq.seqId)) ∨
        i ∈ ((beamSelectedEntries ctx sp existingFinished st.entries).filter
          (fun e => !e.isParent)).map (·.seq.seqId)) ∧
       i ∉ ((beamUnselectedEntries ctx sp existingFinished st.entries).filter
         (·.isParent)).map (·.seq.seqId)) := by
  rw [beamFinalize_fst]
  rw [foldl_removeUnselected_mem]
  rw [foldl_addForkStep_seqIds]
  rw [List.mem_append]
  rw [foldl_removeExisting_mem]

/-- The beam-search selection around the `beam_width` cut, over an abstract
mid-step state: every finished sequence ranked in the top `beam_width`
remains in (or is added to) the group, and every finished sequence ranked
below the cut is absent from the group afterwards.  The hypotheses are the
invariants established by the sample-application and decode phases. -/
theorem beam_selection_general (ctx : EngineCtx) (sp : SamplingParams)
    (exF : List Sequence) (st : P1State)
    (gIds runIds abortedIds : List Nat) (counter : Nat)
    (h1 : ∀ e ∈ st.entries,
      (e.isParent = true ∧ e.seq.seqId ∈ runIds ∧ e.seq.seqId ∉ abortedIds ∧
        e.seq.seqId < counter) ∨
      (e.isParent = false ∧ counter ≤ e.seq.seqId))
    (h2 : (st.entries.map (·.seq.seqId)).Nodup)
    (h3 : ∀ i, i ∈ st.group.seqIds ↔ (i ∈ gIds ∧ i ∉ abortedIds))
    (h4 : ∀ s ∈ exF, s.seqId ∈ gIds ∧ s.seqId ∉ runIds ∧ s.seqId ∉ abortedIds ∧
      s.seqId < counter)
    (h5 : (exF.map (·.seqId)).Nodup)
    (h6 : ∀ i ∈ runIds, i ∈ gIds)
    (h7 : ∀ i ∈ gIds, i < counter) :
    (∀ e ∈ (beamAllFinishedSorted ctx exF st.entries).take sp.bestOf,
      e.entry.seq.seqId ∈ (beamFinalize ctx sp exF st).1.seqIds) ∧
    (∀ e ∈ (beamAllFinishedSorted ctx exF st.entries).drop sp.bestOf,
      e.entry.seq.seqId ∉ (beamFinalize ctx sp exF st).1.seqIds) := by
  have hperm : (beamAllFinishedSorted ctx exF st.entries).Perm
      (beamAllFinished exF st.entries) := pySortDesc_perm _ _
  have hshape : ∀ x ∈ beamAllFinished exF st.entries,
      (x.isNew = false ∧ x.entry.seq ∈ exF) ∨
      (x.isNew = true ∧ x.entry ∈ st.entries ∧ x.entry.seq.isFinished = true) := by
    intro x hx
    rcases List.mem_append.mp hx with h | h
    · rcases List.mem_map.mp h with ⟨s, hs, rfl⟩
      exact Or.inl ⟨rfl, hs⟩
    · rcases List.mem_map.mp h with ⟨ce, hce, rfl⟩
      rcases List.mem_filter.mp hce with ⟨hmem, hfin⟩
      exact Or.inr ⟨rfl, hmem, hfin⟩
  have hids_all : (beamAllFinished exF st.entries).map (fun e => e.entry.seq.seqId) =
      exF.map (·.seqId) ++
        (st.entries.filter (fun e => e.seq.isFinished)).map (·.seq.seqId) := by
    unfold beamAllFinished
    rw [List.map_append, List.map_map, List.map_map]
    rfl
  have hnodup_all : ((beamAllFinished exF st.entries).map
      (fun e => e.entry.seq.seqId)).Nodup := by
    rw [hids_all, List.nodup_append]
    refine ⟨h5, ?_, ?_⟩
    · exact List.Nodup.sublist (List.Sublist.map _ (List.filter_sublist _)) h2
    · intro i hi hi'
      rcases List.mem_map.mp hi with ⟨s, hs, rfl⟩
      rcases List.mem_map.mp hi' with ⟨ce, hce, hid⟩
      have hcem := (List.mem_filter.mp hce).1
      rcases h1 ce hcem with ⟨_, hrun, _, _⟩ | ⟨_, hge⟩
      · exact (h4 s hs).2.1 (hid ▸ hrun)
      · have := (h4 s hs).2.2.2
        omega
  have hnodup_ranked : ((beamAllFinishedSorted ctx exF st.entries).map
      (fun e => e.entry.seq.seqId)).Nodup :=
    ((hperm.map (fun e => e.entry.seq.seqId)).nodup_iff).mpr hnodup_all
  have hsplit : ((beamAllFinishedSorted ctx exF st.entries).take sp.bestOf ++
      (beamAllFinishedSorted ctx exF st.entries).drop sp.bestOf).map
        (fun e => e.entry.seq.seqId) |>.Nodup := by
    rw [List.take_append_drop]
    exact hnodup_ranked
  rw [List.map_append, List.nodup_append] at hsplit
  rcases hsplit with ⟨_, _, hdisjTD⟩
  have hinj := List.inj_on_of_nodup_map h2
  have hrun_mem : ∀ x ∈ beamRunningSorted ctx st.entries,
      x ∈ st.entries ∧ x.seq.isFinished = false := by
    intro x hx
    have := (pySortDesc_perm (beamKey ctx)
      (st.entries.filter (fun e => !e.seq.isFinished))).mem_iff.mp hx
    rcases List.mem_filter.mp this with ⟨hmem, hfin⟩
    exact ⟨hmem, by simpa using hfin⟩
  have hunsel_cases : ∀ x ∈ beamUnselectedEntries ctx sp exF st.entries,
      x ∈ (((beamAllFinishedSorted ctx exF st.entries).drop sp.bestOf).filter
        (·.isNew)).map (·.entry) ∨ x ∈ beamRunningSorted ctx st.entries := by
    intro x hx
    simp only [beamUnselectedEntries] at hx
    rcases List.mem_append.mp hx with h | h
    · exact Or.inl h
    · by_cases hstop : beamStopDecision ctx sp (beamAllFinishedSorted ctx exF st.entries)
        (beamRunningSorted ctx st.entries) = true
      · rw [if_pos hstop] at h
        exact Or.inr h
      · rw [if_neg hstop] at h
        exact Or.inr (List.drop_subset _ _ h)
  have hsel_cases : ∀ x ∈ beamSelectedEntries ctx sp exF st.entries,
      x ∈ (((beamAllFinishedSorted ctx exF st.entries).take sp.bestOf).filter
        (·.isNew)).map (·.entry) ∨ x ∈ beamRunningSorted ctx st.entries := by
    intro x hx
    simp only [beamSelectedEntries] at hx
    rcases List.mem_append.mp hx with h | h
    · exact Or.inl h
    · by_cases hstop : beamStopDecision ctx sp (beamAllFinishedSorted ctx exF st.entries)
        (beamRunningSorted ctx st.entries) = true
      · rw [if_pos hstop] at h
        cases h
      · rw [if_neg hstop] at h
        exact Or.inr (List.take_subset _ _ h)
  have hUnselParent : ∀ i,
      i ∈ ((beamUnselectedEntries ctx sp exF st.entries).filter (·.isParent)).map
        (·.seq.seqId) →
      i ∈ ((beamAllFinishedSorted ctx exF st.entries).drop sp.bestOf).map
        (fun e => e.entry.seq.seqId) ∨
      (∃ x ∈ st.entries, x.seq.seqId = i ∧ x.isParent = true ∧
        x.seq.isFinished = false) := by
    intro i hi
    rcases List.mem_map.mp hi with ⟨x, hx, rfl⟩
    rcases List.mem_filter.mp hx with ⟨hxu, hxp⟩
    rcases hunsel_cases x hxu with h | h
    · rcases List.mem_map.mp h with ⟨fe, hfe, rfl⟩
      exact Or.inl (List.mem_map_of_mem _ (List.mem_of_mem_filter hfe))
    · rcases hrun_mem x h with ⟨hmem, hfin⟩
      exact Or.inr ⟨x, hmem, rfl, hxp, hfin⟩
  have hAdded : ∀ i,
      i ∈ ((beamSelectedEntries ctx sp exF st.entries).filter
        (fun e => !e.isParent)).map (·.seq.seqId) →
      i ∈ ((beamAllFinishedSorted ctx exF st.entries).take sp.bestOf).map
        (fun e => e.entry.seq.seqId) ∨
      (∃ x ∈ st.entries, x.seq.seqId = i ∧ x.isParent = false ∧
        x.seq.isFinished = false) := by
    intro i hi
    rcases List.mem_map.mp hi with ⟨x, hx, rfl⟩
    rcases List.mem_filter.mp hx with ⟨hxs, hxp⟩
    rcases hsel_cases x hxs with h | h
    · rcases List.mem_map.mp h with ⟨fe, hfe, rfl⟩
      exact Or.inl (List.mem_map_of_mem _ (List.mem_of_mem_filter hfe))
    · rcases hrun_mem x h with ⟨hmem, hfin⟩
      exact Or.inr ⟨x, hmem, rfl, by simpa using hxp, hfin⟩
  have hRemEx : ∀ i,
      i ∈ (beamRemovedExisting ctx sp exF st.entries).map (fun e => e.entry.seq.seqId) →
      i ∈ ((beamAllFinishedSorted ctx exF st.entries).drop sp.bestOf).map
        (fun e => e.entry.seq.seqId) := by
    intro i hi
    rcases List.mem_map.mp hi with ⟨fe, hfe, rfl⟩
    exact List.mem_map_of_mem _ (List.mem_of_mem_filter hfe)
  constructor
  · intro e he
    have hidTake : e.entry.seq.seqId ∈
        ((beamAllFinishedSorted ctx exF st.entries).take sp.bestOf).map
          (fun x => x.entry.seq.seqId) := List.mem_map_of_mem _ he
    have hidNotDrop : e.entry.seq.seqId ∉
        ((beamAllFinishedSorted ctx exF st.entries).drop sp.bestOf).map
          (fun x => x.entry.seq.seqId) := fun h => hdisjTD hidTake h
    have he_all : e ∈ beamAllFinished exF st.entries :=
      hperm.mem_iff.mp (List.take_subset _ _ he)
    rw [beamFinalize_mem]
    rcases hshape e he_all with ⟨hnew, hsE⟩ | ⟨hnew, hce, hfin⟩
    · rcases h4 _ hsE with ⟨hg, hnr, hna, hlt⟩
      refine ⟨Or.inl ⟨(h3 _).mpr ⟨hg, hna⟩, fun hc => hidNotDrop (hRemEx _ hc)⟩, ?_⟩
      intro hc
      rcases hUnselParent _ hc with h | ⟨x, hxm, hxi, hxp, hxf⟩
      · exact hidNotDrop h
      · rcases h1 x hxm with ⟨_, hrun, _, _⟩ | ⟨hxp', _⟩
        · exact hnr (hxi ▸ hrun)
        · rw [hxp] at hxp'
          cases hxp'
    · by_cases hpar : e.entry.isParent = true
      · rcases h1 e.entry hce with ⟨_, hrun, hna, hlt⟩ | ⟨hpar', _⟩
        · refine ⟨Or.inl ⟨(h3 _).mpr ⟨h6 _ hrun, hna⟩,
            fun hc => hidNotDrop (hRemEx _ hc)⟩, ?_⟩
          intro hc
          rcases hUnselParent _ hc with h | ⟨x, hxm, hxi, hxp, hxf⟩
          · exact hidNotDrop h
          · have := hinj hxm hce hxi
            rw [this] at hxf
            rw [hxf] at hfin
            cases hfin
        · rw [hpar] at hpar'
          cases hpar'
      · have hpar' : e.entry.isParent = false := by
          cases hp : e.entry.isParent
          · rfl
          · exact absurd hp hpar
        have hselF : e.entry ∈ (((beamAllFinishedSorted ctx exF st.entries).take
            sp.bestOf).filter (·.isNew)).map (·.entry) :=
          List.mem_map_of_mem _ (List.mem_filter.mpr ⟨he, hnew⟩)
        have hsel : e.entry ∈ beamSelectedEntries ctx sp exF st.entries := by
          simp only [beamSelectedEntries]
          exact List.mem_append.mpr (Or.inl hselF)
        have hadd : e.entry.seq.seqId ∈
            ((beamSelectedEntries ctx sp exF st.entries).filter
              (fun x => !x.isParent)).map (·.seq.seqId) :=
          List.mem_map_of_mem _ (List.mem_filter.mpr ⟨hsel, by simp [hpar']⟩)
        refine ⟨Or.inr hadd, ?_⟩
        intro hc
        rcases hUnselParent _ hc with h | ⟨x, hxm, hxi, hxp, hxf⟩
        · exact hidNotDrop h
        · have := hinj hxm hce hxi
          rw [this] at hxp
          rw [hxp] at hpar'
          cases hpar'
  · intro e he
    have hidDrop : e.entry.seq.seqId ∈
        ((beamAllFinishedSorted ctx exF st.entries).drop sp.bestOf).map
          (fun x => x.entry.seq.seqId) := List.mem_map_of_mem _ he
    have hidNotTake : e.entry.seq.seqId ∉
        ((beamAllFinishedSorted ctx exF st.entries).take sp.bestOf).map
          (fun x => x.entry.seq.seqId) := fun h => hdisjTD h hidDrop
    have he_all : e ∈ beamAllFinished exF st.entries :=
      hperm.mem_iff.mp (List.drop_subset _ _ he)
    rw [beamFinalize_mem]
    rintro ⟨hor, hnotunsel⟩
    rcases hshape e he_all with ⟨hnew, hsE⟩ | ⟨hnew, hce, hfin⟩
    · rcases h4 _ hsE with ⟨hg, hnr, hna, hlt⟩
      have hrem : e.entry.seq.seqId ∈
          (beamRemovedExisting ctx sp exF st.entries).map (fun x => x.entry.seq.seqId) := by
        unfold beamRemovedExisting
        exact List.mem_map_of_mem _ (List.mem_filter.mpr ⟨he, by simp [hnew]⟩)
      rcases hor with ⟨_, hnrem⟩ | hadd
      · exact hnrem hrem
      · rcases hAdded _ hadd with h | ⟨x, hxm, hxi, hxp, hxf⟩
        · exact hidNotTake h
        · rcases h1 x hxm with ⟨hxp', _, _, _⟩ | ⟨_, hge⟩
          · rw [hxp] at hxp'
            cases hxp'
          · rw [hxi] at hge
            omega
    · by_cases hpar : e.entry.isParent = true
      · have hunselF : e.entry ∈ (((beamAllFinishedSorted ctx exF st.entries).drop
            sp.bestOf).filter (·.isNew)).map (·.entry) :=
          List.mem_map_of_mem _ (List.mem_filter.mpr ⟨he, hnew⟩)
        have hunsel : e.entry ∈ beamUnselectedEntries ctx sp exF st.entries := by
          simp only [beamUnselectedEntries]
          exact List.mem_append.mpr (Or.inl hunselF)
        exact hnotunsel (List.mem_map_of_mem _ (List.mem_filter.mpr ⟨hunsel, hpar⟩))
      · have hpar' : e.entry.isParent = false := by
          cases hp : e.entry.isParent
          · rfl
          · exact absurd hp hpar
        rcases h1 e.entry hce with ⟨hxp', _, _, _⟩ | ⟨_, hge⟩
        · rw [hpar'] at hxp'
          cases hxp'
        · rcases hor with ⟨hgrp, _⟩ | hadd
          · have := h7 _ ((h3 _).mp hgrp).1
            omega
          · rcases hAdded _ hadd with h | ⟨x, hxm, hxi, hxp, hxf⟩
            · exact hidNotTake h
            · have := hinj hxm hce hxi
              rw [this] at hxf
              rw [hxf] at hfin
              cases hfin

/-- C6 (confirmed): in the beam branch, existing finished sequences and the
sequences newly finished this step are sorted together by beam-search score
descending; the sort is stable (per score value, input order — existing
first, then the new ones in `(child, parent)` order — is preserved; the
claim's secondary seq-id tie-break is vacuous, since insertion order already
resolves every tie); every finished sequence ranked in the top `beam_width`
is in the group afterwards (newly finished forked children are added),
and every finished sequence ranked below the top `beam_width` is not
(newly finished ones are not added or their reused parent is removed,
low-ranked existing ones are removed). -/
theorem c6_beam_finished_selection (ctx : EngineCtx) (g : SequenceGroup)
    (promptChunkLen : Nat) (samples : List SequenceOutputs) (counter : Nat)
    (hbeam : g.samplingParams.useBeamSearch = true)
    (hnodup : g.seqIds.Nodup)
    (hfresh : ∀ i ∈ g.seqIds, i < counter) :
    (beamAllFinishedSorted ctx g.finishedSeqs
        (midEntries ctx g promptChunkLen samples counter)).Pairwise
      (fun x y => finishedKey ctx y ≤ finishedKey ctx x) ∧
    (∀ q : Rat,
      (beamAllFinishedSorted ctx g.finishedSeqs
          (midEntries ctx g promptChunkLen samples counter)).filter
        (fun e => decide (finishedKey ctx e = q)) =
      (beamAllFinished g.finishedSeqs
          (midEntries ctx g promptChunkLen samples counter)).filter
        (fun e => decide (finishedKey ctx e = q))) ∧
    (∀ e ∈ (beamAllFinishedSorted ctx g.finishedSeqs
        (midEntries ctx g promptChunkLen samples counter)).take g.samplingParams.bestOf,
      e.entry.seq.seqId ∈
        (processSequenceGroupSamples ctx g promptChunkLen samples counter).1.seqIds) ∧
    (∀ e ∈ (beamAllFinishedSorted ctx g.finishedSeqs
        (midEntries ctx g promptChunkLen samples counter)).drop g.samplingParams.bestOf,
      e.entry.seq.seqId ∉
        (processSequenceGroupSamples ctx g promptChunkLen samples counter).1.seqIds) := by
  unfold midEntries
  have hinj : ∀ s ∈ g.seqs, ∀ t ∈ g.seqs, s.seqId = t.seqId → s = t :=
    fun s hs t ht h => List.inj_on_of_nodup_map hnodup hs ht h
  have habort_sub : ∀ i ∈ zeroChildSampleParents g samples,
      i ∈ g.runningSeqs.map (·.seqId) := by
    intro i hi
    rcases List.mem_map.mp hi with ⟨p, hp, rfl⟩
    exact List.mem_map_of_mem _ (List.mem_of_mem_filter hp)
  have habort_empty : ∀ i ∈ zeroChildSampleParents g samples,
      childSamplesFor samples i = [] := by
    intro i hi
    rcases List.mem_map.mp hi with ⟨p, hp, rfl⟩
    have := (List.mem_filter.mp hp).2
    simpa [List.isEmpty_iff] using this
  rcases applySamplesPhase_spec g promptChunkLen samples counter hnodup hfresh with
    ⟨hF1a, hF2a⟩
  have h1 : ∀ e ∈ (decodePhase ctx g.samplingParams
      (applySamplesPhase g promptChunkLen samples counter)).entries,
      (e.isParent = true ∧ e.seq.seqId ∈ g.runningSeqs.map (·.seqId) ∧
        e.seq.seqId ∉ zeroChildSampleParents g samples ∧ e.seq.seqId < counter) ∨
      (e.isParent = false ∧ counter ≤ e.seq.seqId) := by
    intro e he
    rcases decodePhase_entry_mem ctx g.samplingParams _ e he with ⟨e1, he1, hid, hpar⟩
    rcases hF1a e1 he1 with ⟨hp, hr, hs, hlt⟩ | ⟨hp, hge⟩
    · refine Or.inl ⟨hpar.trans hp, hid ▸ hr, ?_, hid ▸ hlt⟩
      intro hc
      exact hs (habort_empty _ (hid ▸ hc))
    · exact Or.inr ⟨hpar.trans hp, hid ▸ hge⟩
  have h2 : (((decodePhase ctx g.samplingParams
      (applySamplesPhase g promptChunkLen samples counter)).entries).map
      (·.seq.seqId)).Nodup := by
    rw [decodePhase_entries_ids]
    exact hF2a
  have h3 : ∀ i, i ∈ (decodePhase ctx g.samplingParams
      (applySamplesPhase g promptChunkLen samples counter)).group.seqIds ↔
      (i ∈ g.seqIds ∧ i ∉ zeroChildSampleParents g samples) := by
    intro i
    rw [decodePhase_group_seqIds]
    exact applySamplesPhase_group_mem g promptChunkLen samples counter i
  have hfin_not_run : ∀ s ∈ g.finishedSeqs, s.seqId ∉ g.runningSeqs.map (·.seqId) := by
    intro s hs hc
    rcases List.mem_map.mp hc with ⟨r, hr, hid⟩
    rcases List.mem_filter.mp hs with ⟨hsmem, hsfin⟩
    rcases List.mem_filter.mp hr with ⟨hrmem, hrrun⟩
    have : r = s := hinj r hrmem s hsmem hid
    rw [this] at hrrun
    have hrun : s.status = SequenceStatus.running := of_decide_eq_true hrrun
    unfold Sequence.isFinished at hsfin
    rw [hrun] at hsfin
    cases hsfin
  have h4 : ∀ s ∈ g.finishedSeqs, s.seqId ∈ g.seqIds ∧
      s.seqId ∉ g.runningSeqs.map (·.seqId) ∧
      s.seqId ∉ zeroChildSampleParents g samples ∧ s.seqId < counter := by
    intro s hs
    have hsmem : s ∈ g.seqs := List.mem_of_mem_filter hs
    have hgid : s.seqId ∈ g.seqIds := List.mem_map_of_mem _ hsmem
    exact ⟨hgid, hfin_not_run s hs,
      fun hc => hfin_not_run s hs (habort_sub _ hc), hfresh _ hgid⟩
  have h5 : (g.finishedSeqs.map (·.seqId)).Nodup :=
    List.Nodup.sublist (List.Sublist.map _ (List.filter_sublist _)) hnodup
  have h6 : ∀ i ∈ g.runningSeqs.map (·.seqId), i ∈ g.seqIds := by
    intro i hi
    rcases List.mem_map.mp hi with ⟨p, hp, rfl⟩
    exact List.mem_map_of_mem _ (List.mem_of_mem_filter hp)
  rcases beam_selection_general ctx g.samplingParams g.finishedSeqs
    (decodePhase ctx g.samplingParams (applySamplesPhase g promptChunkLen samples counter))
    g.seqIds (g.runningSeqs.map (·.seqId)) (zeroChildSampleParents g samples) counter
    h1 h2 h3 h4 h5 h6 hfresh with ⟨hc, hd⟩
  refine ⟨pySortDesc_pairwise _ _, fun q => pySortDesc_filter_key _ q _, ?_, ?_⟩
  · intro e he
    rw [processSequenceGroupSamples_fst_beam ctx g promptChunkLen samples counter hbeam]
    exact hc e he
  · intro e he
    rw [processSequenceGroupSamples_fst_beam ctx g promptChunkLen samples counter hbeam]
    exact hd e he

/-- Witness for `c6_beam_finished_selection` on the beam fixture group. -/
theorem c6_beam_finished_selection_witness :
    groupBeamFix.samplingParams.useBeamSearch = true ∧
    groupBeamFix.seqIds.Nodup ∧
    (∀ i ∈ groupBeamFix.seqIds, i < 3) ∧
    ((beamAllFinishedSorted ctxBeamFix groupBeamFix.finishedSeqs
        (midEntries ctxBeamFix groupBeamFix 0 samplesBeamFix 3)).Pairwise
      (fun x y => finishedKey ctxBeamFix y ≤ finishedKey ctxBeamFix x) ∧
     (∀ q : Rat,
       (beamAllFinishedSorted ctxBeamFix groupBeamFix.finishedSeqs
           (midEntries ctxBeamFix groupBeamFix 0 samplesBeamFix 3)).filter
         (fun e => decide (finishedKey ctxBeamFix e = q)) =
       (beamAllFinished groupBeamFix.finishedSeqs
           (midEntries ctxBeamFix groupBeamFix 0 samplesBeamFix 3)).filter
         (fun e => decide (finishedKey ctxBeamFix e = q))) ∧
     (∀ e ∈ (beamAllFinishedSorted ctxBeamFix groupBeamFix.finishedSeqs
         (midEntries ctxBeamFix groupBeamFix 0 samplesBeamFix 3)).take
           groupBeamFix.samplingParams.bestOf,
       e.entry.seq.seqId ∈
         (processSequenceGroupSamples ctxBeamFix groupBeamFix 0 samplesBeamFix 3).1.seqIds) ∧
     (∀ e ∈ (beamAllFinishedSorted ctxBeamFix groupBeamFix.finishedSeqs
         (midEntries ctxBeamFix groupBeamFix 0 samplesBeamFix 3)).drop
           groupBeamFix.samplingParams.bestOf,
       e.entry.seq.seqId ∉
         (processSequenceGroupSamples ctxBeamFix groupBeamFix 0 samplesBeamFix 3).1.seqIds)) :=
  ⟨rfl, by decide, by decide,
   c6_beam_finished_selection ctxBeamFix groupBeamFix 0 samplesBeamFix 3 rfl
     (by decide) (by decide)⟩

/-- Witness for `c10_stop_check_frame` at a concrete running sequence. -/
theorem c10_stop_check_frame_witness :
    (checkStop 1000 99 spFix seqFixC).promptTokenIds = seqFixC.promptTokenIds ∧
    (checkStop 1000 99 spFix seqFixC).outputTokenIds = seqFixC.outputTokenIds ∧
    (checkStop 1000 99 spFix seqFixC).seqId = seqFixC.seqId ∧
    (∀ stopStr, firstMatchingStop spFix.stop seqFixC.outputText = some stopStr →
       (checkStop 1000 99 spFix seqFixC).status = SequenceStatus.finishedStopped ∧
       (stopStr ≠ "" →
          (checkStop 1000 99 spFix seqFixC).outputText ++ stopStr = seqFixC.outputText) ∧
       (stopStr = "" → (checkStop 1000 99 spFix seqFixC).outputText = "")) ∧
    (firstMatchingStop spFix.stop seqFixC.outputText = none →
       (checkStop 1000 99 spFix seqFixC).outputText = seqFixC.outputText ∧
       ((checkStop 1000 99 spFix seqFixC).status = seqFixC.status ∨
        (checkStop 1000 99 spFix seqFixC).status = SequenceStatus.finishedStopped ∨
        (checkStop 1000 99 spFix seqFixC).status = SequenceStatus.finishedLengthCapped)) :=
  c10_stop_check_frame 1000 99 spFix seqFixC

end Sarathi
